import Mathlib

/-!
Shallow embedding of the tichu-rs game core.

The repository contains two parallel implementations of the card model and
the combination classifier: `src/game_core/core.rs` (namespace `CoreRs`
below) and `src/game_core/types.rs` (namespace `TypesRs` below).  The card
data type has the same shape in both files, so it is defined once and
shared; the functions that differ between the two files (numeric value of a
card, equality, the classifier) are defined separately per namespace.

Hash maps are modelled as association lists where the first matching key
wins on lookup (so consing a new entry is `HashMap::insert`), socket ids
(`Sid`) as natural numbers, and `rand` as an explicit stream of indices.
-/

set_option linter.unnecessarySeqFocus false

namespace Tichu

/-- Socket id (`socketioxide::socket::Sid`), modelled as a natural number. -/
abbrev Sid := Nat

/-- `enum Color` (identical in core.rs and types.rs). -/
inductive Color
  | Black
  | Blue
  | Red
  | Green
deriving DecidableEq, Repr

/-- `std::mem::discriminant` on `Color`, as a numeric constructor index. -/
def Color.discr : Color → Nat
  | .Black => 0
  | .Blue => 1
  | .Red => 2
  | .Green => 3

/-- `enum Team` (identical in core.rs and types.rs). -/
inductive Team
  | One
  | Two
  | Spectator
deriving DecidableEq, Repr

/-- `enum TrickType` (identical in core.rs and types.rs). -/
inductive TrickType
  | Single
  | Pair
  | Triple
  | FullHouse
  | Straight
  | SequenceOfPairs
  | FourOfAKind
  | StraightFlush
deriving DecidableEq, Repr

/-- `enum Action` (types.rs). -/
inductive Action
  | Pass
  | Play
deriving DecidableEq, Repr

/-- `enum Cards`.  The `Box<Mahjong>` / `Box<Phoenix>` wrappers are flattened
into the constructor arguments: `Mahjong` carries its optional wish and
`Phoenix` its optional assigned value. -/
inductive Cards
  | Dog
  | Mahjong (wish : Option Cards)
  | Two (c : Color)
  | Three (c : Color)
  | Four (c : Color)
  | Five (c : Color)
  | Six (c : Color)
  | Seven (c : Color)
  | Eight (c : Color)
  | Nine (c : Color)
  | Ten (c : Color)
  | Jack (c : Color)
  | Queen (c : Color)
  | King (c : Color)
  | Ace (c : Color)
  | Phoenix (value : Option Nat)
  | Dragon
deriving Repr

namespace Cards

/-- Structural equality of cards: the `#[derive(PartialEq)]` of core.rs,
where two Phoenixes are equal only if their assigned values agree. -/
def beq : Cards → Cards → Bool
  | .Dog, .Dog => true
  | .Mahjong w1, .Mahjong w2 =>
      match w1, w2 with
      | none, none => true
      | some a, some b => beq a b
      | _, _ => false
  | .Two a, .Two b => a == b
  | .Three a, .Three b => a == b
  | .Four a, .Four b => a == b
  | .Five a, .Five b => a == b
  | .Six a, .Six b => a == b
  | .Seven a, .Seven b => a == b
  | .Eight a, .Eight b => a == b
  | .Nine a, .Nine b => a == b
  | .Ten a, .Ten b => a == b
  | .Jack a, .Jack b => a == b
  | .Queen a, .Queen b => a == b
  | .King a, .King b => a == b
  | .Ace a, .Ace b => a == b
  | .Phoenix v1, .Phoenix v2 => v1 == v2
  | .Dragon, .Dragon => true
  | _, _ => false

instance : BEq Cards := ⟨beq⟩

set_option maxHeartbeats 1000000 in
theorem eq_of_beq : ∀ (a b : Cards), beq a b = true → a = b
  | .Dog, b, h => by cases b <;> simp [Cards.beq] at h ⊢
  | .Dragon, b, h => by cases b <;> simp [Cards.beq] at h ⊢
  | .Mahjong w1, b, h => by
      cases b <;> try simp [Cards.beq] at h
      case Mahjong w2 =>
        cases w1 <;> cases w2 <;> simp [Cards.beq] at h ⊢
        case some.some => exact Cards.eq_of_beq _ _ h
  | .Two a, b, h => by cases b <;> simp [Cards.beq] at h ⊢ <;> exact h
  | .Three a, b, h => by cases b <;> simp [Cards.beq] at h ⊢ <;> exact h
  | .Four a, b, h => by cases b <;> simp [Cards.beq] at h ⊢ <;> exact h
  | .Five a, b, h => by cases b <;> simp [Cards.beq] at h ⊢ <;> exact h
  | .Six a, b, h => by cases b <;> simp [Cards.beq] at h ⊢ <;> exact h
  | .Seven a, b, h => by cases b <;> simp [Cards.beq] at h ⊢ <;> exact h
  | .Eight a, b, h => by cases b <;> simp [Cards.beq] at h ⊢ <;> exact h
  | .Nine a, b, h => by cases b <;> simp [Cards.beq] at h ⊢ <;> exact h
  | .Ten a, b, h => by cases b <;> simp [Cards.beq] at h ⊢ <;> exact h
  | .Jack a, b, h => by cases b <;> simp [Cards.beq] at h ⊢ <;> exact h
  | .Queen a, b, h => by cases b <;> simp [Cards.beq] at h ⊢ <;> exact h
  | .King a, b, h => by cases b <;> simp [Cards.beq] at h ⊢ <;> exact h
  | .Ace a, b, h => by cases b <;> simp [Cards.beq] at h ⊢ <;> exact h
  | .Phoenix v, b, h => by cases b <;> simp [Cards.beq] at h ⊢ <;> exact h

theorem beq_self : ∀ (a : Cards), beq a a = true
  | .Dog => rfl
  | .Dragon => rfl
  | .Mahjong none => rfl
  | .Mahjong (some c) => by simpa [Cards.beq] using beq_self c
  | .Two c => by simp [Cards.beq]
  | .Three c => by simp [Cards.beq]
  | .Four c => by simp [Cards.beq]
  | .Five c => by simp [Cards.beq]
  | .Six c => by simp [Cards.beq]
  | .Seven c => by simp [Cards.beq]
  | .Eight c => by simp [Cards.beq]
  | .Nine c => by simp [Cards.beq]
  | .Ten c => by simp [Cards.beq]
  | .Jack c => by simp [Cards.beq]
  | .Queen c => by simp [Cards.beq]
  | .King c => by simp [Cards.beq]
  | .Ace c => by simp [Cards.beq]
  | .Phoenix v => by simp [Cards.beq]

instance instDecEqCards : DecidableEq Cards := fun a b =>
  decidable_of_iff (beq a b = true) ⟨eq_of_beq a b, fun h => h ▸ beq_self a⟩

instance : LawfulBEq Cards where
  eq_of_beq := fun h => eq_of_beq _ _ h
  rfl := beq_self _

/-- `Cards::get_card_number` from types.rs: Mahjong counts as 1, the Phoenix
contributes its assigned value, Dog and Dragon have no number. -/
def get_card_number : Cards → Option Nat
  | .Mahjong _ => some 1
  | .Two _ => some 2
  | .Three _ => some 3
  | .Four _ => some 4
  | .Five _ => some 5
  | .Six _ => some 6
  | .Seven _ => some 7
  | .Eight _ => some 8
  | .Nine _ => some 9
  | .Ten _ => some 10
  | .Jack _ => some 11
  | .Queen _ => some 12
  | .King _ => some 13
  | .Ace _ => some 14
  | .Phoenix p => p
  | _ => none

/-- `Cards::get_card_digit` from core.rs: identical to `get_card_number`
except that the Mahjong has no numeric value here. -/
def get_card_digit : Cards → Option Nat
  | .Two _ => some 2
  | .Three _ => some 3
  | .Four _ => some 4
  | .Five _ => some 5
  | .Six _ => some 6
  | .Seven _ => some 7
  | .Eight _ => some 8
  | .Nine _ => some 9
  | .Ten _ => some 10
  | .Jack _ => some 11
  | .Queen _ => some 12
  | .King _ => some 13
  | .Ace _ => some 14
  | .Phoenix p => p
  | _ => none

/-- `Cards::get_color` (identical in both files): only the thirteen numeric
ranks carry a suit. -/
def get_color : Cards → Option Color
  | .Two c => some c
  | .Three c => some c
  | .Four c => some c
  | .Five c => some c
  | .Six c => some c
  | .Seven c => some c
  | .Eight c => some c
  | .Nine c => some c
  | .Ten c => some c
  | .Jack c => some c
  | .Queen c => some c
  | .King c => some c
  | .Ace c => some c
  | _ => none

/-- `Cards::get_points` from types.rs. -/
def get_points : Cards → Int
  | .Five _ => 5
  | .Ten _ => 10
  | .King _ => 10
  | .Dragon => 25
  | .Phoenix _ => -25
  | _ => 0

/-- `std::mem::discriminant`, as a numeric index of the constructor. -/
def discr : Cards → Nat
  | .Dog => 0
  | .Mahjong _ => 1
  | .Two _ => 2
  | .Three _ => 3
  | .Four _ => 4
  | .Five _ => 5
  | .Six _ => 6
  | .Seven _ => 7
  | .Eight _ => 8
  | .Nine _ => 9
  | .Ten _ => 10
  | .Jack _ => 11
  | .Queen _ => 12
  | .King _ => 13
  | .Ace _ => 14
  | .Phoenix _ => 15
  | .Dragon => 16

end Cards

/-- `Vec::sort` on a vector of numbers. -/
def sortNat (l : List Nat) : List Nat :=
  List.insertionSort (· ≤ ·) l

/-- `Vec::dedup`: removes consecutive repeated elements. -/
def vec_dedup : List Nat → List Nat
  | [] => []
  | [a] => [a]
  | a :: b :: t => if a = b then vec_dedup (b :: t) else a :: vec_dedup (b :: t)

/-- `slice::windows(2).all(|w| w[0] + 1 == w[1])`. -/
def consecPairs : List Nat → Bool
  | [] => true
  | [_] => true
  | a :: b :: t => (a + 1 == b) && consecPairs (b :: t)

/-- `slice::windows(4).all(|w| w[0] == w[1] && w[2] == w[3] && w[0] + 1 == w[2])`. -/
def windows4All : List Nat → Bool
  | a :: b :: c :: d :: t => ((a == b) && (c == d) && (a + 1 == c)) && windows4All (b :: c :: d :: t)
  | _ => true

/-- All elements of a list equal its first element (used for the
`iter().all(|c| discriminant(c) == discriminant(cs[0]))` checks; the Rust
code indexes `cs[0]`, which is only evaluated on nonempty input). -/
def allEqHead : List Nat → Bool
  | [] => true
  | h :: t => (h :: t).all (fun x => x == h)

/-- Spec-side description of the sorted value pattern of `k` contiguous
ascending pairs starting at `a`: `a a (a+1) (a+1) ... (a+k-1) (a+k-1)`. -/
def pairRun (a : Nat) : Nat → List Nat
  | 0 => []
  | k + 1 => a :: a :: pairRun (a + 1) k

/-! ## The classifier of types.rs (`impl TryFrom<&[Cards]> for TrickType`) -/

namespace TypesRs

open Cards

/-- Digits of a card list as computed in types.rs (via `get_card_number`). -/
def card_numbers (cards : List Cards) : List Nat :=
  cards.filterMap get_card_number

/-- `all_equal` from types.rs `TryFrom<&[Cards]>`: collect the card numbers,
sort, dedup, and test that exactly one value remains. -/
def all_equal (cards : List Cards) : Bool :=
  (vec_dedup (sortNat (card_numbers cards))).length == 1

/-- `is_sequence` from types.rs: sorted card numbers ascend by exactly 1. -/
def is_sequence (cards : List Cards) : Bool :=
  consecPairs (sortNat (card_numbers cards))

/-- `is_sequence_of_pairs` from types.rs: every window of four sorted card
numbers is of the shape `a a (a+1) (a+1)`. -/
def is_sequence_of_pairs (cards : List Cards) : Bool :=
  windows4All (sortNat (card_numbers cards))

/-- `is_full_house` from types.rs: exactly two distinct card numbers whose
occurrence counts are `[2, 3]` or `[3, 2]`. -/
def is_full_house (cards : List Cards) : Bool :=
  let card_values := card_numbers cards
  let unique_cards := vec_dedup (sortNat card_values)
  if unique_cards.length ≠ 2 then false
  else
    let occurrences := unique_cards.map (fun c => (card_values.filter (fun x => x == c)).length)
    occurrences == [2, 3] || occurrences == [3, 2]

/-- The discriminant test of the length-4 arm of types.rs. -/
def sameDiscriminant (cards : List Cards) : Bool :=
  allEqHead (cards.map discr)

/-- The straight branch of types.rs: reject the flush when some card has no
suit (Phoenix, Mahjong), otherwise require a single suit. -/
def straightKind (cards : List Cards) : TrickType :=
  let colors := cards.filterMap get_color
  if colors.length ≠ cards.length then TrickType.Straight
  else if allEqHead (colors.map Color.discr) then TrickType.StraightFlush
  else TrickType.Straight

/-- `TryFrom<&[Cards]> for TrickType` (types.rs, lines 224-317).  The match
arms on `cards.len()` are rendered as a guard chain in source order; an arm
whose guard fails falls through to the later arms exactly as in Rust. -/
def try_from (cards : List Cards) : Except String TrickType :=
  if cards.length = 1 then .ok .Single
  else if cards.length = 2 then
    (if all_equal cards then .ok .Pair else .error "invalid trick")
  else if cards.length = 3 then
    (if all_equal cards then .ok .Triple else .error "invalid trick")
  else if cards.length = 4 then
    (if sameDiscriminant cards then .ok .FourOfAKind else .error "invalid trick")
  else if cards.length = 5 ∧ is_full_house cards then .ok .FullHouse
  else if 4 ≤ cards.length ∧ cards.length ≤ 14 ∧ is_sequence_of_pairs cards then
    .ok .SequenceOfPairs
  else if 5 ≤ cards.length ∧ cards.length ≤ 14 ∧ is_sequence cards then
    .ok (straightKind cards)
  else .error "invalid trick"

/-- `PartialEq` of types.rs cards: the derived structural equality, except
that `impl PartialEq for Phoenix` (types.rs lines 125-129) makes any two
Phoenixes equal regardless of their assigned values. -/
def eqCards : Cards → Cards → Bool
  | .Dog, .Dog => true
  | .Mahjong w1, .Mahjong w2 =>
      match w1, w2 with
      | none, none => true
      | some a, some b => eqCards a b
      | _, _ => false
  | .Two a, .Two b => a == b
  | .Three a, .Three b => a == b
  | .Four a, .Four b => a == b
  | .Five a, .Five b => a == b
  | .Six a, .Six b => a == b
  | .Seven a, .Seven b => a == b
  | .Eight a, .Eight b => a == b
  | .Nine a, .Nine b => a == b
  | .Ten a, .Ten b => a == b
  | .Jack a, .Jack b => a == b
  | .Queen a, .Queen b => a == b
  | .King a, .King b => a == b
  | .Ace a, .Ace b => a == b
  | .Phoenix _, .Phoenix _ => true
  | .Dragon, .Dragon => true
  | _, _ => false

/-- `Vec::contains` under the types.rs `PartialEq`. -/
def containsCard (l : List Cards) (c : Cards) : Bool :=
  l.any (fun e => eqCards e c)

/-- `struct Hand` (types.rs). -/
structure Hand where
  cards : List Cards
deriving DecidableEq, Repr

/-- `struct Player` (types.rs). -/
structure Player where
  socket_id : Sid
  username : String
  is_host : Bool
  hand : Option Hand
  team : Option Team
  exchange : Option (List (String × Cards))
  trick_points : Int
  place : Nat
deriving DecidableEq, Repr

/-- `struct Round` (types.rs).  `prev_next_player : HashMap<Sid, Player>`
is an association list where the first matching key wins. -/
structure Round where
  prev_next_player : List (Sid × Player)
  current_player : Sid
  last_played_player : Sid
  previous_action : Option Action
  current_trick : List (List Cards)
  current_trick_type : Option TrickType
  first_to_finish : Option Sid
deriving DecidableEq, Repr

/-- `HashMap::get` on the next-player map. -/
def getPlayer (m : List (Sid × Player)) (k : Sid) : Option Player :=
  (m.find? (fun kv => kv.1 == k)).map (fun kv => kv.2)

/-- `impl Iterator for Round` (types.rs lines 41-63).  The mutation of
`self` is made explicit: the result is `none` where the Rust code panics on
a missing map entry, and otherwise carries the yielded `Option<Sid>`
together with the updated round.  The hand check skips at most one seat: a
single `if`, not a loop. -/
def Round.next (r : Round) : Option (Option Sid × Round) :=
  match getPlayer r.prev_next_player r.current_player with
  | none => none
  | some np0 =>
    match (if np0.hand.isNone then getPlayer r.prev_next_player np0.socket_id else some np0) with
    | none => none
    | some np1 =>
      if r.previous_action = some Action.Pass ∧ np1.socket_id = r.last_played_player then
        some (none, { r with current_player := r.last_played_player })
      else
        some (some np1.socket_id, { r with current_player := np1.socket_id })

/-- Spec-side description of a single advance, following the amended wording
of the spec for `advance()`: follow `next` from the current seat, and if the
player sitting there has no hand follow `next` once more (at most one skip).
Returns the seat so reached. -/
def advanceOneSkip (r : Round) : Option Sid :=
  match getPlayer r.prev_next_player r.current_player with
  | none => none
  | some p =>
    (if p.hand.isNone then getPlayer r.prev_next_player p.socket_id else some p).map
      (fun q => q.socket_id)

end TypesRs

/-! ## core.rs: card helpers, classifier, dealing, exchange, seating -/

namespace CoreRs

open Cards

/-- `enum Phase` (identical in core.rs and types.rs). -/
inductive Phase
  | Exchanging
  | Playing
deriving DecidableEq, Repr

/-- Digits of a card list as computed in core.rs (via `get_card_digit`,
which gives the Mahjong no value). -/
def card_digits (cards : List Cards) : List Nat :=
  cards.filterMap get_card_digit

/-- `all_equal` from core.rs `TryFrom<Vec<Cards>>`. -/
def all_equal (cards : List Cards) : Bool :=
  (vec_dedup (sortNat (card_digits cards))).length == 1

/-- `is_sequence` from core.rs. -/
def is_sequence (cards : List Cards) : Bool :=
  consecPairs (sortNat (card_digits cards))

/-- `is_sequence_of_pairs` from core.rs. -/
def is_sequence_of_pairs (cards : List Cards) : Bool :=
  windows4All (sortNat (card_digits cards))

/-- `is_full_house` from core.rs (lines 218-236): note that `types_count`
counts occurrences inside the already deduplicated `card_types`, not inside
the original digit list. -/
def is_full_house (cards : List Cards) : Bool :=
  let card_types := vec_dedup (sortNat (card_digits cards))
  if card_types.length ≠ 2 then false
  else
    let types_count := card_types.map (fun t => (card_types.filter (fun c => c == t)).length)
    types_count == [2, 3] || types_count == [3, 2]

/-- `TryFrom<Vec<Cards>> for TrickType` (core.rs, lines 184-255), with the
match arms on `cards.len()` rendered as a guard chain in source order.
Unlike types.rs, the length-4 arm is guarded by `all_equal`, so a 4-card
list that is not four of a kind falls through to the later arms. -/
def try_from (cards : List Cards) : Except String TrickType :=
  if cards.length = 1 then .ok .Single
  else if cards.length = 2 then
    (if all_equal cards then .ok .Pair else .error "invalid trick")
  else if cards.length = 3 then
    (if all_equal cards then .ok .Triple else .error "invalid trick")
  else if cards.length = 4 ∧ all_equal cards then .ok .FourOfAKind
  else if cards.length = 5 ∧ is_full_house cards then .ok .FullHouse
  else if 4 ≤ cards.length ∧ cards.length ≤ 14 ∧ is_sequence_of_pairs cards then
    .ok .SequenceOfPairs
  else if 5 ≤ cards.length ∧ cards.length ≤ 14 ∧ is_sequence cards then
    (if (cards.filterMap get_color).length = 1 then .ok .StraightFlush else .ok .Straight)
  else .error "invalid trick"

/-- `struct Hand` (core.rs). -/
structure Hand where
  cards : List Cards
deriving DecidableEq, Repr

/-- `struct Player` (core.rs). -/
structure Player where
  socket_id : Sid
  username : String
  hand : Option Hand
  team : Option Team
  exchange : Option (List (String × Cards))
deriving DecidableEq, Repr

/-- `struct TurnIterator` (core.rs): `turn_sequence : HashMap<Sid, Sid>` as
an association list where the first matching key wins. -/
structure TurnIterator where
  turn_sequence : List (Sid × Sid)
  current_player : Sid
deriving DecidableEq, Repr

/-- `struct Game` (core.rs). -/
structure Game where
  game_id : String
  players : List (Sid × Player)
  phase : Option Phase
  score_t1 : Nat
  score_t2 : Nat
  player_turn_iterator : Option TurnIterator
  current_trick : List Cards
  current_trick_type : Option TrickType
deriving DecidableEq, Repr

/-- `struct Exchange` (core.rs). -/
structure Exchange where
  game_id : String
  player_card : List (String × Cards)
deriving DecidableEq, Repr

/-- `HashMap::get` on a `Sid`-keyed association list. -/
def getSid (m : List (Sid × Sid)) (k : Sid) : Option Sid :=
  (m.find? (fun kv => kv.1 == k)).map (fun kv => kv.2)

/-- `HashMap::get` for players. -/
def getP (m : List (Sid × Player)) (k : Sid) : Option Player :=
  (m.find? (fun kv => kv.1 == k)).map (fun kv => kv.2)

/-- `HashMap::get` for games. -/
def getGame (m : List (String × Game)) (k : String) : Option Game :=
  (m.find? (fun kv => kv.1 == k)).map (fun kv => kv.2)

/-- `impl From<Vec<Sid>> for TurnIterator` (core.rs lines 33-47).  The loop
inserts `prev -> current` starting from `prev = players.last()`; consing
entries gives `HashMap::insert` semantics under first-match lookup.  The
`unwrap`s on `last()`/`first()` make the empty case a panic, modelled as
`none`. -/
def TurnIterator.from? (players : List Sid) : Option TurnIterator :=
  match players.getLast?, players.head? with
  | some last, some first =>
      some
        { turn_sequence :=
            (players.foldl (fun acc cur => ((acc.2, cur) :: acc.1, cur)) ([], last)).1
          current_player := first }
  | _, _ => none

/-- `impl Iterator for TurnIterator` (core.rs lines 49-61). -/
def TurnIterator.next (ti : TurnIterator) : Option (Sid × TurnIterator) :=
  match getSid ti.turn_sequence ti.current_player with
  | some p => some (p, { ti with current_player := p })
  | none => none

/-- The seat interleaving of `init_playing_phase` (core.rs lines 377-384):
zip the Team One players with the Team Two players and flatten. -/
def init_turns (players : List Player) : List Sid :=
  ((players.filter (fun p => p.team == some Team.One)).zip
      (players.filter (fun p => p.team == some Team.Two))).flatMap
    (fun pq => [pq.1.socket_id, pq.2.socket_id])

/-- `matches!(c, Cards::Mahjong(_))`. -/
def isMahjong : Cards → Bool
  | .Mahjong _ => true
  | _ => false

/-- `init_playing_phase` (core.rs lines 373-406): build the turn iterator
from the interleaved seats, then set `current_player` to the seat holding
the Mahjong.  The `expect`/`unwrap` panics are modelled as `none`. -/
def init_playing_phase (game : Game) : Option Game :=
  match TurnIterator.from? (init_turns (game.players.map Prod.snd)) with
  | none => none
  | some ti =>
    match (game.players.find? (fun kv =>
        match kv.2.hand with
        | some hand => hand.cards.any isMahjong
        | none => false)).map Prod.fst with
    | none => none
    | some mahjong_sid =>
        some { game with player_turn_iterator := some { ti with current_player := mahjong_sid } }

/-- Spec-side view of the seating: the team of the player occupying a seat
(`Sid`), read off the player list. -/
def teamOfSid (players : List Player) (s : Sid) : Option Team :=
  (players.find? (fun p => p.socket_id == s)).bind Player.team

/-- The full 56-card deck built at the top of `generate_hands`
(core.rs lines 268-289): thirteen numeric ranks in each of the four colors,
then Phoenix, Mahjong, Dragon, Dog. -/
def full_deck : List Cards :=
  ([Color.Black, Color.Blue, Color.Red, Color.Green].flatMap (fun color =>
    [Cards.Two color, Cards.Three color, Cards.Four color, Cards.Five color,
     Cards.Six color, Cards.Seven color, Cards.Eight color, Cards.Nine color,
     Cards.Ten color, Cards.Jack color, Cards.Queen color, Cards.King color,
     Cards.Ace color])) ++
  [Cards.Phoenix none, Cards.Mahjong none, Cards.Dragon, Cards.Dog]

/-- `deck.remove(rng.gen_range(0..deck.len()))`: removing the card at index
`i`, provided `i` is in bounds (the Rust range guarantees this; an index out
of bounds is a panic, modelled as `none`). -/
def draw_one (deck : List Cards) (i : Nat) : Option (Cards × List Cards) :=
  if h : i < deck.length then some (deck.get ⟨i, h⟩, deck.eraseIdx i) else none

/-- Draw `n` cards from `deck`, consuming one random index per card. -/
def draw_n : Nat → List Nat → List Cards → Option (List Cards × List Cards × List Nat)
  | 0, rs, deck => some ([], deck, rs)
  | _ + 1, [], _ => none
  | n + 1, i :: rest, deck =>
    match draw_one deck i with
    | none => none
    | some (c, deck2) =>
      (draw_n n rest deck2).map (fun out => (c :: out.1, out.2.1, out.2.2))

/-- `generate_hands` (core.rs lines 268-304), with the random number
generator made explicit as the stream `rs` of indices chosen by
`rng.gen_range(0..deck.len())`: four hands of fourteen cards are drawn from
`full_deck`, each draw removing the chosen card from the deck. -/
def generate_hands (rs : List Nat) : Option (List Hand) :=
  match draw_n 14 rs full_deck with
  | none => none
  | some (h1, d1, r1) =>
    match draw_n 14 r1 d1 with
    | none => none
    | some (h2, d2, r2) =>
      match draw_n 14 r2 d2 with
      | none => none
      | some (h3, d3, r3) =>
        match draw_n 14 r3 d3 with
        | none => none
        | some (h4, _, _) => some [⟨h1⟩, ⟨h2⟩, ⟨h3⟩, ⟨h4⟩]

/-- `player_owns_cards` (core.rs lines 369-371). -/
def player_owns_cards (hand : Hand) (selected_cards : List Cards) : Bool :=
  selected_cards.all (fun card => hand.cards.contains card)

/-- `validate_exchange` (core.rs lines 325-367).  The Rust code sorts the
offered cards and removes consecutive duplicates, leaving one copy of each
distinct card; `List.dedup` computes the same duplicate-free collection
(every later use depends only on its length and membership).  The function
only reads the store, so it returns the validated exchange alone. -/
def validate_exchange (player_id : Sid) (exchange : Exchange)
    (game_store : List (String × Game)) : Except String Exchange :=
  match getGame game_store exchange.game_id with
  | none => .error "game not found"
  | some game =>
    match getP game.players player_id with
    | none => .error "failed getting player"
    | some player =>
      if exchange.player_card.any (fun kv => kv.1 == player.username) then
        .error "cant exchange with yourself"
      else
        let unique_cards := (exchange.player_card.map Prod.snd).dedup
        if unique_cards.length ≠ 3 then .error "failed to exchange cards"
        else
          match player.hand with
          | none => .error "failed to exchange cards"
          | some player_hand =>
            if player_owns_cards player_hand unique_cards then .ok exchange
            else .error "failed to exchange cards"

end CoreRs

/-! ## Concrete sample data used to exercise the definitions -/

/-- A types.rs player with the fields that `Round::next` inspects. -/
def mkTPlayer (sid : Sid) (hand : Option TypesRs.Hand) (team : Option Team) : TypesRs.Player :=
  { socket_id := sid, username := "", is_host := false, hand := hand, team := team,
    exchange := none, trick_points := 0, place := 0 }

/-- A round in which the players after seat 1 (seats 2 and 3) have both
finished: seat 1 points to a handless player at seat 2, who points to a
handless player at seat 3, who points to seat 4 still holding a card. -/
def roundTwoFinished : TypesRs.Round :=
  { prev_next_player :=
      [(1, mkTPlayer 2 none (some Team.One)),
       (2, mkTPlayer 3 none (some Team.Two)),
       (3, mkTPlayer 4 (some ⟨[Cards.Dog]⟩) (some Team.One)),
       (4, mkTPlayer 1 (some ⟨[Cards.Dragon]⟩) (some Team.Two))]
    current_player := 1
    last_played_player := 1
    previous_action := none
    current_trick := []
    current_trick_type := none
    first_to_finish := none }

/-- A round about to close a trick: everyone holds cards, the previous
action was a pass and the next seat is the last aggressor. -/
def roundPassEnd : TypesRs.Round :=
  { prev_next_player :=
      [(1, mkTPlayer 2 (some ⟨[]⟩) (some Team.Two)),
       (2, mkTPlayer 3 (some ⟨[]⟩) (some Team.One)),
       (3, mkTPlayer 4 (some ⟨[]⟩) (some Team.Two)),
       (4, mkTPlayer 1 (some ⟨[]⟩) (some Team.One))]
    current_player := 1
    last_played_player := 2
    previous_action := some Action.Pass
    current_trick := [[Cards.Ten Color.Black]]
    current_trick_type := some TrickType.Single
    first_to_finish := none }

/-- A core.rs player for the seating and exchange samples. -/
def mkCPlayer (sid : Sid) (name : String) (hand : Option CoreRs.Hand) (team : Option Team) :
    CoreRs.Player :=
  { socket_id := sid, username := name, hand := hand, team := team, exchange := none }

/-- Four seated players (plus a spectator) as `HashMap::values` would list
them, two on each non-spectator team. -/
def samplePlayers : List CoreRs.Player :=
  [mkCPlayer 5 "spec" none (some Team.Spectator),
   mkCPlayer 1 "a1" none (some Team.One),
   mkCPlayer 2 "b1" none (some Team.Two),
   mkCPlayer 3 "a2" none (some Team.One),
   mkCPlayer 4 "b2" none (some Team.Two)]

/-- The index stream that always removes the head of the remaining deck. -/
def headDraws : List Nat := List.replicate 56 0

/-- The hands produced by `generate_hands` under `headDraws`: consecutive
14-card chunks of the deck. -/
def chunkHands : List CoreRs.Hand :=
  [⟨CoreRs.full_deck.take 14⟩, ⟨(CoreRs.full_deck.drop 14).take 14⟩,
   ⟨(CoreRs.full_deck.drop 28).take 14⟩, ⟨CoreRs.full_deck.drop 42⟩]

/-- A stored game with one registered player holding four known cards. -/
def sampleGame : CoreRs.Game :=
  { game_id := "g", players :=
      [(1, mkCPlayer 1 "alice"
          (some ⟨[Cards.Two Color.Black, Cards.Three Color.Blue, Cards.King Color.Red,
                  Cards.Dog]⟩) (some Team.One))]
    phase := some CoreRs.Phase.Exchanging, score_t1 := 0, score_t2 := 0,
    player_turn_iterator := none, current_trick := [], current_trick_type := none }

/-- A one-game store holding `sampleGame`. -/
def sampleStore : List (String × CoreRs.Game) := [("g", sampleGame)]

/-- A well-formed exchange offer from alice to three distinct partners. -/
def sampleExchange : CoreRs.Exchange :=
  { game_id := "g",
    player_card := [("bob", Cards.Two Color.Black), ("carol", Cards.Three Color.Blue),
                    ("dan", Cards.King Color.Red)] }

/-! ## General lemmas about the embedded helpers -/

theorem vec_dedup_eq_nil : ∀ {l : List Nat}, vec_dedup l = [] ↔ l = [] := by
  intro l
  induction l using vec_dedup.induct with
  | case1 => simp [vec_dedup]
  | case2 a => simp [vec_dedup]
  | case3 b t ih => simp [vec_dedup, ih]
  | case4 a b t hab ih => simp [vec_dedup, hab]

theorem vec_dedup_length_eq_one :
    ∀ {l : List Nat}, (vec_dedup l).length = 1 ↔ l ≠ [] ∧ ∀ x ∈ l, ∀ y ∈ l, x = y := by
  intro l
  induction l using vec_dedup.induct with
  | case1 => simp [vec_dedup]
  | case2 a => simp [vec_dedup]
  | case3 b t ih =>
    rw [show vec_dedup (b :: b :: t) = vec_dedup (b :: t) by simp [vec_dedup]]
    rw [ih]
    constructor
    · rintro ⟨-, hall⟩
      refine ⟨by simp, ?_⟩
      intro x hx y hy
      have hx2 : x ∈ b :: t := by
        rcases List.mem_cons.mp hx with rfl | hx2
        · simp
        · exact hx2
      have hy2 : y ∈ b :: t := by
        rcases List.mem_cons.mp hy with rfl | hy2
        · simp
        · exact hy2
      exact hall x hx2 y hy2
    · rintro ⟨-, hall⟩
      refine ⟨by simp, ?_⟩
      intro x hx y hy
      exact hall x (List.mem_cons_of_mem b hx) y (List.mem_cons_of_mem b hy)
  | case4 a b t hab ih =>
    rw [show vec_dedup (a :: b :: t) = a :: vec_dedup (b :: t) by simp [vec_dedup, hab]]
    simp only [List.length_cons]
    constructor
    · intro h
      have h0 : (vec_dedup (b :: t)).length = 0 := by omega
      have hnil : vec_dedup (b :: t) = [] := List.length_eq_zero.mp h0
      rw [vec_dedup_eq_nil] at hnil
      simp at hnil
    · rintro ⟨-, hall⟩
      exact absurd (hall a (by simp) b (by simp)) hab

theorem consecPairs_strict : ∀ {a b : Nat} {t : List Nat},
    consecPairs (a :: b :: t) = true → a + 1 = b ∧ consecPairs (b :: t) = true := by
  intro a b t h
  simpa [consecPairs] using h

theorem consecPairs_vec_dedup : ∀ {l : List Nat}, consecPairs l = true → vec_dedup l = l := by
  intro l
  induction l using vec_dedup.induct with
  | case1 => simp [vec_dedup]
  | case2 a => simp [vec_dedup]
  | case3 b t ih =>
    intro h
    obtain ⟨hbb, -⟩ := consecPairs_strict h
    omega
  | case4 a b t hab ih =>
    intro h
    obtain ⟨-, ht⟩ := consecPairs_strict h
    simp [vec_dedup, hab, ih ht]

theorem vec_dedup_cons :
    ∀ (l : List Nat) (x : Nat) (t : List Nat), l = x :: t → ∃ t2, vec_dedup l = x :: t2 := by
  intro l
  induction l using vec_dedup.induct with
  | case1 =>
    intro x t h
    exact List.noConfusion h
  | case2 a =>
    intro x t h
    obtain ⟨rfl, -⟩ := List.cons.injEq .. ▸ h
    exact ⟨[], rfl⟩
  | case3 b t0 ih =>
    intro x t h
    obtain ⟨rfl, -⟩ := List.cons.injEq .. ▸ h
    obtain ⟨t2, ht2⟩ := ih b t0 rfl
    exact ⟨t2, by simpa [vec_dedup] using ht2⟩
  | case4 a b t0 hab ih =>
    intro x t h
    obtain ⟨rfl, -⟩ := List.cons.injEq .. ▸ h
    exact ⟨vec_dedup (b :: t0), by simp [vec_dedup, hab]⟩

theorem vec_dedup_head_ne :
    ∀ (l : List Nat) (a b : Nat) (t : List Nat), vec_dedup l = a :: b :: t → a ≠ b := by
  intro l
  induction l using vec_dedup.induct with
  | case1 =>
    intro a b t h
    simp [vec_dedup] at h
  | case2 c =>
    intro a b t h
    simp [vec_dedup] at h
  | case3 c t0 ih =>
    intro a b t h
    rw [show vec_dedup (c :: c :: t0) = vec_dedup (c :: t0) by simp [vec_dedup]] at h
    exact ih a b t h
  | case4 a0 b0 t0 hab ih =>
    intro a b t h
    rw [show vec_dedup (a0 :: b0 :: t0) = a0 :: vec_dedup (b0 :: t0) by
      simp [vec_dedup, hab]] at h
    obtain ⟨rfl, h2⟩ := List.cons.injEq .. ▸ h
    obtain ⟨t2, ht2⟩ := vec_dedup_cons (b0 :: t0) b0 t0 rfl
    rw [ht2] at h2
    obtain ⟨rfl, -⟩ := List.cons.injEq .. ▸ h2
    exact hab

theorem sortNat_length (l : List Nat) : (sortNat l).length = l.length :=
  List.length_insertionSort (fun a b => a ≤ b) l

theorem pairRun_length : ∀ (k a : Nat), (pairRun a k).length = 2 * k := by
  intro k
  induction k with
  | zero => intro a; rfl
  | succ n ih =>
    intro a
    simp only [pairRun, List.length_cons, ih]
    omega

/-- The `windows(4)` test succeeds exactly on lists of fewer than four
elements (vacuously) and on the single four-element shape `a a (a+1) (a+1)`:
for five or more elements any two overlapping windows contradict each
other. -/
theorem windows4All_iff : ∀ l : List Nat,
    windows4All l = true ↔ l.length ≤ 3 ∨ ∃ a, l = [a, a, a + 1, a + 1]
  | [] => by simp [windows4All]
  | [a] => by simp [windows4All]
  | [a, b] => by simp [windows4All]
  | [a, b, c] => by simp [windows4All]
  | [a, b, c, d] => by
    constructor
    · intro h
      simp [windows4All] at h
      obtain ⟨⟨rfl, rfl⟩, rfl⟩ := h
      exact Or.inr ⟨a, rfl⟩
    · rintro (h | ⟨x, hx⟩)
      · simp at h
      · rw [hx]
        simp [windows4All]
  | a :: b :: c :: d :: e :: t => by
    constructor
    · intro h
      simp [windows4All] at h
      obtain ⟨⟨⟨rfl, -⟩, h3⟩, ⟨⟨h4, -⟩, -⟩, -⟩ := h
      omega
    · rintro (h | ⟨x, hx⟩)
      · simp only [List.length_cons] at h
        omega
      · have hlen := congrArg List.length hx
        simp only [List.length_cons, List.length_nil] at hlen
        omega

/-- Membership survives `Vec::dedup`. -/
theorem vec_dedup_subset {x : Nat} : ∀ {l : List Nat}, x ∈ vec_dedup l → x ∈ l := by
  intro l
  induction l using vec_dedup.induct with
  | case1 => simp [vec_dedup]
  | case2 a => simp [vec_dedup]
  | case3 b t ih =>
    intro h
    rw [show vec_dedup (b :: b :: t) = vec_dedup (b :: t) by simp [vec_dedup]] at h
    exact List.mem_cons_of_mem b (ih h)
  | case4 a b t hab ih =>
    intro h
    rw [show vec_dedup (a :: b :: t) = a :: vec_dedup (b :: t) by
      simp [vec_dedup, hab]] at h
    rcases List.mem_cons.mp h with rfl | h2
    · exact List.mem_cons_self x (b :: t)
    · exact List.mem_cons_of_mem a (ih h2)

/-- Two distinct values cannot occur twice and three times in a list of at
most three elements. -/
theorem counts_not_two_three {l : List Nat} {x y : Nat} (hne : x ≠ y)
    (hlen : l.length ≤ 3) :
    ¬((l.filter (fun v => v == x)).length = 2 ∧
      (l.filter (fun v => v == y)).length = 3) := by
  rintro ⟨hx, hy⟩
  have hx2 : l.countP (fun v => v == x) = 2 := by
    rw [List.countP_eq_length_filter]
    exact hx
  have hy2 : l.countP (fun v => v == y) = 3 := by
    rw [List.countP_eq_length_filter]
    exact hy
  have hmono : l.countP (fun v => v == y) ≤
      l.countP (fun a => decide ¬((a == x) = true)) := by
    apply List.countP_mono_left
    intro a _ hay
    simp only [beq_iff_eq] at hay
    subst hay
    simp only [decide_eq_true_eq, beq_iff_eq]
    exact Ne.symm hne
  have hsplit := List.length_eq_countP_add_countP (fun v => v == x) l
  omega

theorem allEqHead_iff : ∀ {l : List Nat}, allEqHead l = true ↔ ∀ x ∈ l, ∀ y ∈ l, x = y := by
  intro l
  cases l with
  | nil => simp [allEqHead]
  | cons h t =>
    simp only [allEqHead, List.all_eq_true, beq_iff_eq]
    constructor
    · intro hall x hx y hy
      rw [hall x hx, hall y hy]
    · intro hall x hx
      exact hall x hx h (by simp)

theorem sortNat_ne_nil {l : List Nat} (h : l ≠ []) : sortNat l ≠ [] := by
  intro hs
  apply h
  have := List.length_insertionSort (fun a b => a ≤ b) l
  rw [show List.insertionSort (· ≤ ·) l = sortNat l from rfl, hs] at this
  exact List.length_eq_zero.mp this.symm

/-- The `sort` + `dedup` + `len == 1` idiom of `all_equal` holds exactly when
the list is nonempty and all its elements coincide. -/
theorem dedup_sort_len_one_iff (l : List Nat) :
    ((vec_dedup (sortNat l)).length == 1) = true ↔ l ≠ [] ∧ ∀ x ∈ l, ∀ y ∈ l, x = y := by
  rw [beq_iff_eq, vec_dedup_length_eq_one]
  unfold sortNat
  constructor
  · rintro ⟨hne, hall⟩
    refine ⟨fun h0 => hne (by rw [h0]; rfl), ?_⟩
    intro x hx y hy
    exact hall x (by simpa using hx) y (by simpa using hy)
  · rintro ⟨hne, hall⟩
    refine ⟨sortNat_ne_nil hne, ?_⟩
    intro x hx y hy
    exact hall x (by simpa using hx) y (by simpa using hy)

theorem length_filterMap_eq_iff {α β : Type} {f : α → Option β} :
    ∀ {l : List α}, (l.filterMap f).length = l.length ↔ ∀ a ∈ l, (f a).isSome = true := by
  intro l
  induction l with
  | nil => simp
  | cons a t ih =>
    cases hfa : f a with
    | none =>
      simp only [List.filterMap_cons, hfa, List.length_cons]
      constructor
      · intro h
        have := List.length_filterMap_le f t
        omega
      · intro h
        exact absurd (h a (by simp)) (by simp [hfa])
    | some b =>
      simp only [List.filterMap_cons, hfa, List.length_cons, Nat.add_right_cancel_iff]
      rw [ih]
      constructor
      · intro h x hx
        rcases List.mem_cons.mp hx with rfl | hx
        · simp [hfa]
        · exact h x hx
      · intro h x hx
        exact h x (by simp [hx])

theorem TypesRs.all_equal_number_iff (cards : List Cards) :
    TypesRs.all_equal cards = true ↔
      TypesRs.card_numbers cards ≠ [] ∧
        ∀ x ∈ TypesRs.card_numbers cards, ∀ y ∈ TypesRs.card_numbers cards, x = y := by
  unfold TypesRs.all_equal
  exact dedup_sort_len_one_iff _

theorem CoreRs.all_equal_digit_iff (cards : List Cards) :
    CoreRs.all_equal cards = true ↔
      CoreRs.card_digits cards ≠ [] ∧
        ∀ x ∈ CoreRs.card_digits cards, ∀ y ∈ CoreRs.card_digits cards, x = y := by
  unfold CoreRs.all_equal
  exact dedup_sort_len_one_iff _

/-! ## Lemmas about single cards -/

theorem Cards.number_of_colored {c : Cards} (h : (c.get_color).isSome = true) :
    c.get_card_number = some c.discr := by
  cases c <;> simp [Cards.get_color, Cards.get_card_number, Cards.discr] at h ⊢

theorem Cards.digit_of_colored {c : Cards} (h : (c.get_color).isSome = true) :
    c.get_card_digit = some c.discr := by
  cases c <;> simp [Cards.get_color, Cards.get_card_digit, Cards.discr] at h ⊢

theorem Cards.discr_eq_phoenix {c : Cards} : c.discr = 15 ↔ ∃ v, c = Cards.Phoenix v := by
  cases c <;> simp [Cards.discr]

theorem Cards.colored_of_numbered {c : Cards} (hn : (c.get_card_number).isSome = true)
    (hp : ∀ v, c ≠ Cards.Phoenix v) (hm : ∀ w, c ≠ Cards.Mahjong w) :
    (c.get_color).isSome = true := by
  cases c <;> simp_all [Cards.get_card_number, Cards.get_color]

/-! ## Claim C5: special cards in two-card lists -/

/-- C5, counterexample: the two-card list `[Dog, Two of Black]` contains a
Dog, yet the types.rs classifier accepts it as a Pair (the Dog contributes
no numeric value, so `all_equal` only sees the single value 2), refuting the
claim that every 2-card list containing a Dog, Mahjong, or Dragon is
rejected. -/
theorem C5_counterexample :
    TypesRs.try_from [Cards.Dog, Cards.Two Color.Black] = Except.ok TrickType.Pair := by
  rfl

/-- C5, amended: a two-card list classifies as Pair exactly when at least
one card has a numeric value and no two present numeric values differ.
Hence two-card lists in which both cards lack a numeric value (two Dogs, two
Dragons, Dog with Dragon, an unassigned Phoenix with any of them) are
rejected, and `[Mahjong, x]` is rejected unless `x` also counts as 1; but a
Dog or a Dragon next to a single numbered card is accepted as a Pair. -/
theorem C5_two_card_classification (c d : Cards) :
    TypesRs.try_from [c, d] = Except.ok TrickType.Pair ↔
      ((c.get_card_number ≠ none ∨ d.get_card_number ≠ none) ∧
        ∀ m n, c.get_card_number = some m → d.get_card_number = some n → m = n) := by
  have step : TypesRs.try_from [c, d] =
      (if TypesRs.all_equal [c, d] then Except.ok TrickType.Pair
       else Except.error "invalid trick") := by
    norm_num [TypesRs.try_from]
  rw [step]
  have hiff := TypesRs.all_equal_number_iff [c, d]
  split_ifs with hae
  · rw [hiff] at hae
    refine iff_of_true rfl ⟨?_, ?_⟩
    · by_contra hboth
      push_neg at hboth
      obtain ⟨hc0, hd0⟩ := hboth
      exact hae.1 (by simp [TypesRs.card_numbers, List.filterMap_cons, hc0, hd0])
    · intro m n hm hn
      refine hae.2 m ?_ n ?_
      · simp only [TypesRs.card_numbers, List.mem_filterMap]
        exact ⟨c, by simp, hm⟩
      · simp only [TypesRs.card_numbers, List.mem_filterMap]
        exact ⟨d, by simp, hn⟩
  · refine iff_of_false (by simp) ?_
    rintro ⟨hsome, hagree⟩
    apply hae
    rw [hiff]
    constructor
    · rcases hc : c.get_card_number with _ | m <;> rcases hd : d.get_card_number with _ | n <;>
        simp [TypesRs.card_numbers, List.filterMap_cons, hc, hd] at hsome ⊢
    · intro x hx y hy
      simp only [TypesRs.card_numbers, List.mem_filterMap, List.mem_cons,
        List.not_mem_nil, or_false] at hx hy
      obtain ⟨a, ha, hax⟩ := hx
      obtain ⟨b, hb, hby⟩ := hy
      rcases ha with rfl | rfl <;> rcases hb with rfl | rfl
      · rw [hax] at hby
        exact Option.some.inj hby
      · exact hagree x y hax hby
      · exact (hagree y x hby hax).symm
      · rw [hax] at hby
        exact Option.some.inj hby

/-- C5, witness for the amended theorem: two Mahjongs both count as the
value 1, so the classifier accepts them as a Pair. -/
theorem C5_two_card_classification_witness :
    TypesRs.try_from [Cards.Mahjong none, Cards.Mahjong none] = Except.ok TrickType.Pair :=
  (C5_two_card_classification (Cards.Mahjong none) (Cards.Mahjong none)).mpr
    ⟨Or.inl (by simp [Cards.get_card_number]), fun m n hm hn =>
      (Option.some.inj hm).symm.trans (Option.some.inj hn)⟩

/-! ## Claim C3: four-of-a-kind classification -/

/-- C3, counterexample: a list of four Phoenixes all share the `Phoenix`
discriminant, so the types.rs classifier returns FourOfAKind even though the
list contains Phoenixes and no natural card, refuting the claim that any
4-card list containing a Phoenix is rejected. -/
theorem C3_counterexample :
    TypesRs.try_from
        [Cards.Phoenix (some 2), Cards.Phoenix (some 2), Cards.Phoenix (some 2),
         Cards.Phoenix (some 2)] =
      Except.ok TrickType.FourOfAKind := by
  rfl

/-- C3, amended: a 4-card list classifies as FourOfAKind exactly when all
four cards share one constructor (one rank for natural cards, or four copies
of the same special card); consequently a 4-card list containing a Phoenix
together with any non-Phoenix card is rejected, whatever the Phoenix's
assigned value. -/
theorem C3_four_card_classification (cards : List Cards) (h4 : cards.length = 4) :
    (TypesRs.try_from cards = Except.ok TrickType.FourOfAKind ↔
      ∀ c ∈ cards, ∀ d ∈ cards, c.discr = d.discr) ∧
    (∀ p ∈ cards, ∀ q ∈ cards, (∃ v, p = Cards.Phoenix v) → (∀ v, q ≠ Cards.Phoenix v) →
      TypesRs.try_from cards = Except.error "invalid trick") := by
  rcases cards with - | ⟨a, - | ⟨b, - | ⟨c, - | ⟨d, - | ⟨e, t⟩⟩⟩⟩⟩ <;> simp at h4
  have step : TypesRs.try_from [a, b, c, d] =
      (if TypesRs.sameDiscriminant [a, b, c, d] then Except.ok TrickType.FourOfAKind
       else Except.error "invalid trick") := by
    norm_num [TypesRs.try_from]
  have hdisc : TypesRs.sameDiscriminant [a, b, c, d] = true ↔
      ∀ x ∈ [a, b, c, d], ∀ y ∈ [a, b, c, d], x.discr = y.discr := by
    rw [TypesRs.sameDiscriminant, allEqHead_iff]
    constructor
    · intro h x hx y hy
      exact h _ (List.mem_map_of_mem Cards.discr hx) _ (List.mem_map_of_mem Cards.discr hy)
    · intro h x hx y hy
      obtain ⟨x0, hx0, rfl⟩ := List.mem_map.mp hx
      obtain ⟨y0, hy0, rfl⟩ := List.mem_map.mp hy
      exact h x0 hx0 y0 hy0
  constructor
  · rw [step]
    split_ifs with hsd
    · exact iff_of_true rfl (hdisc.mp hsd)
    · exact iff_of_false (by simp) (fun h => hsd (hdisc.mpr h))
  · rintro p hp q hq ⟨v, rfl⟩ hqn
    rw [step, if_neg]
    intro hsd
    have h15 : (Cards.Phoenix v).discr = q.discr := hdisc.mp hsd _ hp _ hq
    have : q.discr = 15 := by
      rw [← h15]
      rfl
    obtain ⟨w, rfl⟩ := Cards.discr_eq_phoenix.mp this
    exact hqn w rfl

/-- C3, witness for the amended theorem: four natural Twos classify as
FourOfAKind, and a Two-triple plus a Phoenix assigned the value 2 is
rejected. -/
theorem C3_four_card_classification_witness :
    TypesRs.try_from
        [Cards.Two Color.Black, Cards.Two Color.Blue, Cards.Two Color.Red,
         Cards.Two Color.Green] = Except.ok TrickType.FourOfAKind ∧
    TypesRs.try_from
        [Cards.Two Color.Black, Cards.Two Color.Blue, Cards.Two Color.Red,
         Cards.Phoenix (some 2)] = Except.error "invalid trick" := by
  constructor
  · exact (C3_four_card_classification
      [Cards.Two Color.Black, Cards.Two Color.Blue, Cards.Two Color.Red, Cards.Two Color.Green]
      (by rfl)).1.mpr (by decide)
  · exact (C3_four_card_classification
      [Cards.Two Color.Black, Cards.Two Color.Blue, Cards.Two Color.Red, Cards.Phoenix (some 2)]
      (by rfl)).2 (Cards.Phoenix (some 2)) (by simp)
      (Cards.Two Color.Black) (by simp) ⟨_, rfl⟩ (by simp)

/-! ## Claim C4: sequences of pairs -/

/-- C4, counterexample: three natural pairs on contiguous ranks (2 2 3 3 4
4, k = 3) are rejected by the types.rs classifier, refuting the claim that
every k-pair sequence with k ≥ 2 classifies as SequenceOfPairs (the
`windows(4)` test fails on the middle window `2 3 3 4`). -/
theorem C4_counterexample :
    TypesRs.try_from
        [Cards.Two Color.Black, Cards.Two Color.Blue, Cards.Three Color.Black,
         Cards.Three Color.Blue, Cards.Four Color.Black, Cards.Four Color.Blue] =
      Except.error "invalid trick" := by
  rfl

/-- Under either of the sorted-value shapes accepted by the `windows(4)` test
(at most three values overall, or exactly the double pair `a a (a+1) (a+1)`),
the `is_full_house` test of types.rs cannot succeed: it needs two distinct
values with occurrence counts 2 and 3, hence five values. -/
theorem TypesRs.is_full_house_false_of_shape (cards : List Cards)
    (h : (TypesRs.card_numbers cards).length ≤ 3 ∨
      ∃ a, sortNat (TypesRs.card_numbers cards) = [a, a, a + 1, a + 1]) :
    TypesRs.is_full_house cards = false := by
  simp only [TypesRs.is_full_house]
  by_cases hl : (vec_dedup (sortNat (TypesRs.card_numbers cards))).length = 2
  · rw [if_neg (not_not_intro hl)]
    obtain ⟨x, y, hxy⟩ := List.length_eq_two.mp hl
    have hne : x ≠ y := vec_dedup_head_ne _ x y [] hxy
    rw [hxy]
    simp only [List.map_cons, List.map_nil]
    rw [Bool.or_eq_false_iff]
    rcases h with h3 | ⟨a, hshape⟩
    · constructor
      · rw [beq_eq_false_iff_ne]
        intro heq
        rw [List.cons.injEq, List.cons.injEq] at heq
        obtain ⟨h1, h2, -⟩ := heq
        exact counts_not_two_three hne h3 ⟨h1, h2⟩
      · rw [beq_eq_false_iff_ne]
        intro heq
        rw [List.cons.injEq, List.cons.injEq] at heq
        obtain ⟨h1, h2, -⟩ := heq
        exact counts_not_two_three (Ne.symm hne) h3 ⟨h2, h1⟩
    · have hne2 : ¬ (a = a + 1) := by omega
      have hdd : vec_dedup (sortNat (TypesRs.card_numbers cards)) = [a, a + 1] := by
        rw [hshape]
        rw [show vec_dedup [a, a, a + 1, a + 1] = vec_dedup [a, a + 1, a + 1] by
          simp [vec_dedup]]
        rw [show vec_dedup [a, a + 1, a + 1] = a :: vec_dedup [a + 1, a + 1] by
          simp [vec_dedup, hne2]]
        rw [show vec_dedup [a + 1, a + 1] = vec_dedup [a + 1] by simp [vec_dedup]]
        rfl
      obtain ⟨h1, h2⟩ : x = a ∧ y = a + 1 := by
        have h0 := hxy.symm.trans hdd
        simpa using h0
      rw [h1, h2]
      have hperm : List.Perm (sortNat (TypesRs.card_numbers cards))
          (TypesRs.card_numbers cards) := List.perm_insertionSort _ _
      have hba : ¬ (a + 1 = a) := by omega
      have hc1 : ((TypesRs.card_numbers cards).filter (fun v => v == a)).length = 2 := by
        rw [← List.countP_eq_length_filter]
        rw [← List.Perm.countP_eq _ hperm]
        rw [hshape]
        simp [List.countP_cons, hne2, hba]
      have hc2 : ((TypesRs.card_numbers cards).filter
          (fun v => v == a + 1)).length = 2 := by
        rw [← List.countP_eq_length_filter]
        rw [← List.Perm.countP_eq _ hperm]
        rw [hshape]
        simp [List.countP_cons, hne2, hba]
      rw [hc1, hc2]
      refine ⟨?_, ?_⟩ <;> decide
  · rw [if_pos hl]

/-- Inversion of the types.rs classifier at SequenceOfPairs: the only arm that
can produce this trick type is the `is_sequence_of_pairs` guard, and since the
length-4 discriminant arm shadows length 4, the list has 5 to 14 cards. -/
theorem TypesRs.seq_of_pairs_inversion (cards : List Cards)
    (h : TypesRs.try_from cards = Except.ok TrickType.SequenceOfPairs) :
    5 ≤ cards.length ∧ cards.length ≤ 14 ∧
      TypesRs.is_sequence_of_pairs cards = true := by
  have horst : TypesRs.straightKind cards = TrickType.StraightFlush ∨
      TypesRs.straightKind cards = TrickType.Straight := by
    simp only [TypesRs.straightKind]
    split_ifs <;> simp
  unfold TypesRs.try_from at h
  split_ifs at h with h1 h2 h3 h4 h5 h6 h7 h8 h9 h10
  all_goals try (cases h)
  · exact ⟨by omega, h9.2.1, h9.2.2⟩
  · rcases horst with hst | hst <;> rw [hst] at h <;> simp at h

/-- C4, amended: the types.rs classifier returns SequenceOfPairs exactly for
lists of 5 to 14 cards whose card values, sorted, either form the double-pair
shape `a a (a+1) (a+1)` (two adjacent pairs of values, every remaining card
being valueless, e.g. an unassigned Phoenix, a Dog or a Dragon) or number
fewer than four in total (the `windows(4)` test is then vacuous).  In
particular a bare 4-card natural double pair falls into the length-4
discriminant arm and is rejected, and an all-natural run of k ≥ 3 contiguous
pairs (6 to 14 cards) is rejected outright, so the claim's "three or more
pairs" case never classifies. -/
theorem C4_sequence_of_pairs_classification :
    (∀ cards : List Cards,
      TypesRs.try_from cards = Except.ok TrickType.SequenceOfPairs ↔
        5 ≤ cards.length ∧ cards.length ≤ 14 ∧
          ((TypesRs.card_numbers cards).length ≤ 3 ∨
            ∃ a, sortNat (TypesRs.card_numbers cards) = [a, a, a + 1, a + 1])) ∧
    (∀ (a : Nat) (w x y z : Cards),
      (w.get_color).isSome = true → (x.get_color).isSome = true →
      (y.get_color).isSome = true → (z.get_color).isSome = true →
      w.get_card_number = some a → x.get_card_number = some a →
      y.get_card_number = some (a + 1) → z.get_card_number = some (a + 1) →
      TypesRs.try_from [w, x, y, z] = Except.error "invalid trick") ∧
    (∀ (cards : List Cards) (a k : Nat), 3 ≤ k → cards.length = 2 * k →
      cards.length ≤ 14 →
      sortNat (TypesRs.card_numbers cards) = pairRun a k →
      TypesRs.try_from cards = Except.error "invalid trick") := by
  refine ⟨?_, ?_, ?_⟩
  · intro cards
    constructor
    · intro h
      obtain ⟨h5, h14, hsp⟩ := TypesRs.seq_of_pairs_inversion cards h
      refine ⟨h5, h14, ?_⟩
      unfold TypesRs.is_sequence_of_pairs at hsp
      rcases (windows4All_iff _).mp hsp with hlen | hshape
      · left
        rwa [sortNat_length] at hlen
      · right
        exact hshape
    · rintro ⟨h5, h14, hsh⟩
      have hw : TypesRs.is_sequence_of_pairs cards = true := by
        unfold TypesRs.is_sequence_of_pairs
        apply (windows4All_iff _).mpr
        rcases hsh with hlen | hshape
        · left
          rwa [sortNat_length]
        · right
          exact hshape
      have hfh : TypesRs.is_full_house cards = false :=
        TypesRs.is_full_house_false_of_shape cards hsh
      have hn1 : ¬ (cards.length = 1) := by omega
      have hn2 : ¬ (cards.length = 2) := by omega
      have hn3 : ¬ (cards.length = 3) := by omega
      have hn4 : ¬ (cards.length = 4) := by omega
      have h4le : 4 ≤ cards.length := by omega
      simp [TypesRs.try_from, hn1, hn2, hn3, hn4, hfh, h4le, h14, hw]
  · intro a w x y z hcw hcx hcy hcz hw hx hy hz
    have hdw : w.discr = a := by
      have h := Cards.number_of_colored hcw
      rw [hw] at h
      exact (Option.some.inj h).symm
    have hdx : x.discr = a := by
      have h := Cards.number_of_colored hcx
      rw [hx] at h
      exact (Option.some.inj h).symm
    have hdy : y.discr = a + 1 := by
      have h := Cards.number_of_colored hcy
      rw [hy] at h
      exact (Option.some.inj h).symm
    have hdz : z.discr = a + 1 := by
      have h := Cards.number_of_colored hcz
      rw [hz] at h
      exact (Option.some.inj h).symm
    have hne : ¬ (a + 1 = a) := by omega
    have hsd : TypesRs.sameDiscriminant [w, x, y, z] = false := by
      simp [TypesRs.sameDiscriminant, allEqHead, hdw, hdx, hdy, hdz, hne]
    simp [TypesRs.try_from, hsd]
  · intro cards a k hk hlen hle14 hshape
    obtain ⟨m, rfl⟩ : ∃ m, k = m + 3 := ⟨k - 3, by omega⟩
    have hsp : TypesRs.is_sequence_of_pairs cards = false := by
      unfold TypesRs.is_sequence_of_pairs
      rw [hshape]
      cases hwb : windows4All (pairRun a (m + 3)) with
      | false => rfl
      | true =>
        exfalso
        rcases (windows4All_iff _).mp hwb with hl | ⟨b, hb⟩
        · rw [pairRun_length] at hl
          omega
        · have hlb := congrArg List.length hb
          rw [pairRun_length] at hlb
          simp only [List.length_cons, List.length_nil] at hlb
          omega
    have hsq : TypesRs.is_sequence cards = false := by
      unfold TypesRs.is_sequence
      rw [hshape]
      show consecPairs (a :: a :: pairRun (a + 1) (m + 2)) = false
      have hba : (a + 1 == a) = false := by
        rw [beq_eq_false_iff_ne]
        omega
      simp [consecPairs, hba]
    have hn1 : ¬ (cards.length = 1) := by omega
    have hn2 : ¬ (cards.length = 2) := by omega
    have hn3 : ¬ (cards.length = 3) := by omega
    have hn4 : ¬ (cards.length = 4) := by omega
    have hn5 : ¬ (cards.length = 5) := by omega
    simp [TypesRs.try_from, hn1, hn2, hn3, hn4, hn5, hsp, hsq]

/-- C4, witness for the amended theorem: a 3-3-4-4 double pair plus an
unassigned Phoenix, and the same double pair plus Dog and Dragon (six cards),
both classify as SequenceOfPairs; the bare natural double pair 3 3 4 4 and
the natural four-pair run 3 3 4 4 5 5 6 6 (eight cards, k = 4) are both
rejected. -/
theorem C4_sequence_of_pairs_witness :
    TypesRs.try_from
        [Cards.Three Color.Black, Cards.Three Color.Blue, Cards.Four Color.Black,
         Cards.Four Color.Blue, Cards.Phoenix none] = Except.ok TrickType.SequenceOfPairs ∧
    TypesRs.try_from
        [Cards.Three Color.Black, Cards.Three Color.Blue, Cards.Four Color.Black,
         Cards.Four Color.Blue, Cards.Dog, Cards.Dragon] =
      Except.ok TrickType.SequenceOfPairs ∧
    TypesRs.try_from
        [Cards.Three Color.Black, Cards.Three Color.Blue, Cards.Four Color.Black,
         Cards.Four Color.Blue] = Except.error "invalid trick" ∧
    TypesRs.try_from
        [Cards.Three Color.Black, Cards.Three Color.Blue, Cards.Four Color.Black,
         Cards.Four Color.Blue, Cards.Five Color.Black, Cards.Five Color.Blue,
         Cards.Six Color.Black, Cards.Six Color.Blue] =
      Except.error "invalid trick" := by
  refine ⟨?_, ?_, ?_, ?_⟩
  · exact (C4_sequence_of_pairs_classification.1 _).mpr
      ⟨by decide, by decide, Or.inr ⟨3, by decide⟩⟩
  · exact (C4_sequence_of_pairs_classification.1 _).mpr
      ⟨by decide, by decide, Or.inr ⟨3, by decide⟩⟩
  · exact C4_sequence_of_pairs_classification.2.1 3 _ _ _ _ rfl rfl rfl rfl rfl rfl rfl rfl
  · exact C4_sequence_of_pairs_classification.2.2 _ 3 4 (by decide) (by decide)
      (by decide) (by decide)

/-! ## Claim C2: straights and straight flushes -/

theorem Color.discr_inj : ∀ (c d : Color), c.discr = d.discr → c = d := by
  intro c d
  cases c <;> cases d <;> simp [Color.discr]

/-- C2, confirmed: for a list of 5 to 14 cards, each carrying a numeric
value (Mahjong as 1, a Phoenix its assigned value), whose values form a
strictly ascending run of consecutive numbers, the types.rs classifier
returns StraightFlush exactly when the list has no Phoenix, no Mahjong, and
all cards share one suit, and returns Straight in every other case. -/
theorem C2_straight_flush_classification (cards : List Cards)
    (h5 : 5 ≤ cards.length) (h14 : cards.length ≤ 14)
    (hnum : ∀ c ∈ cards, (c.get_card_number).isSome = true)
    (hseq : TypesRs.is_sequence cards = true) :
    (TypesRs.try_from cards = Except.ok TrickType.StraightFlush ↔
      ((∀ c ∈ cards, ∀ v, c ≠ Cards.Phoenix v) ∧
       (∀ c ∈ cards, ∀ w, c ≠ Cards.Mahjong w) ∧
       (∀ c ∈ cards, ∀ d ∈ cards, c.get_color = d.get_color))) ∧
    (TypesRs.try_from cards = Except.ok TrickType.Straight ↔
      ¬ ((∀ c ∈ cards, ∀ v, c ≠ Cards.Phoenix v) ∧
         (∀ c ∈ cards, ∀ w, c ≠ Cards.Mahjong w) ∧
         (∀ c ∈ cards, ∀ d ∈ cards, c.get_color = d.get_color))) := by
  have hdslen : (TypesRs.card_numbers cards).length = cards.length :=
    length_filterMap_eq_iff.mpr hnum
  have hslen : (sortNat (TypesRs.card_numbers cards)).length = cards.length := by
    rw [sortNat, List.length_insertionSort, hdslen]
  have hcp : consecPairs (sortNat (TypesRs.card_numbers cards)) = true := hseq
  have hfh : TypesRs.is_full_house cards = false := by
    have hdd := consecPairs_vec_dedup hcp
    have hcond : (sortNat (TypesRs.card_numbers cards)).length ≠ 2 := by
      rw [hslen]
      omega
    simp [TypesRs.is_full_house, hdd, hcond]
  have hsp : TypesRs.is_sequence_of_pairs cards = false := by
    rcases hs : sortNat (TypesRs.card_numbers cards) with - | ⟨e1, - | ⟨e2, rest⟩⟩
    · rw [hs] at hslen
      simp at hslen
      omega
    · rw [hs] at hslen
      simp at hslen
      omega
    · rw [hs] at hcp
      obtain ⟨h12, -⟩ := consecPairs_strict hcp
      rcases rest with - | ⟨e3, - | ⟨e4, rest2⟩⟩
      · rw [hs] at hslen
        simp at hslen
        omega
      · rw [hs] at hslen
        simp at hslen
        omega
      · have hne : (e1 == e2) = false := by
          simp only [beq_eq_false_iff_ne]
          omega
        simp only [TypesRs.is_sequence_of_pairs, hs]
        simp [windows4All, hne]
  have hl1 : ¬ (cards.length = 1) := by omega
  have hl2 : ¬ (cards.length = 2) := by omega
  have hl3 : ¬ (cards.length = 3) := by omega
  have hl4 : ¬ (cards.length = 4) := by omega
  have step : TypesRs.try_from cards = Except.ok (TypesRs.straightKind cards) := by
    simp [TypesRs.try_from, hl1, hl2, hl3, hl4, hfh, hsp, hseq, h5, h14]
  have hSF : TypesRs.straightKind cards = TrickType.StraightFlush ↔
      ((∀ c ∈ cards, ∀ v, c ≠ Cards.Phoenix v) ∧
       (∀ c ∈ cards, ∀ w, c ≠ Cards.Mahjong w) ∧
       (∀ c ∈ cards, ∀ d ∈ cards, c.get_color = d.get_color)) := by
    by_cases hall : ∀ c ∈ cards, (c.get_color).isSome = true
    · have hclen : (cards.filterMap Cards.get_color).length = cards.length :=
        length_filterMap_eq_iff.mpr hall
      by_cases heq : ∀ c ∈ cards, ∀ d ∈ cards, c.get_color = d.get_color
      · have haeh : allEqHead ((cards.filterMap Cards.get_color).map Color.discr) = true := by
          rw [allEqHead_iff]
          intro x hx y hy
          obtain ⟨cx, hcx, rfl⟩ := List.mem_map.mp hx
          obtain ⟨cy, hcy, rfl⟩ := List.mem_map.mp hy
          obtain ⟨ax, hax, haxc⟩ := List.mem_filterMap.mp hcx
          obtain ⟨ay, hay, hayc⟩ := List.mem_filterMap.mp hcy
          have hcc := heq ax hax ay hay
          rw [haxc, hayc] at hcc
          rw [Option.some.inj hcc]
        have hskSF : TypesRs.straightKind cards = TrickType.StraightFlush := by
          simp [TypesRs.straightKind, hclen, haeh]
        refine iff_of_true hskSF ⟨?_, ?_, heq⟩
        · rintro c hc v rfl
          have h0 := hall _ hc
          simp [Cards.get_color] at h0
        · rintro c hc w rfl
          have h0 := hall _ hc
          simp [Cards.get_color] at h0
      · have haeh : allEqHead ((cards.filterMap Cards.get_color).map Color.discr) = false := by
          by_contra h
          have haeh2 : allEqHead ((cards.filterMap Cards.get_color).map Color.discr) = true := by
            revert h
            cases allEqHead ((cards.filterMap Cards.get_color).map Color.discr) <;> simp
          apply heq
          intro c hc d hd
          obtain ⟨colc, hcolc⟩ := Option.isSome_iff_exists.mp (hall c hc)
          obtain ⟨cold, hcold⟩ := Option.isSome_iff_exists.mp (hall d hd)
          have hmc : colc.discr ∈ (cards.filterMap Cards.get_color).map Color.discr :=
            List.mem_map_of_mem _ (List.mem_filterMap.mpr ⟨c, hc, hcolc⟩)
          have hmd : cold.discr ∈ (cards.filterMap Cards.get_color).map Color.discr :=
            List.mem_map_of_mem _ (List.mem_filterMap.mpr ⟨d, hd, hcold⟩)
          have hdd := allEqHead_iff.mp haeh2 _ hmc _ hmd
          rw [hcolc, hcold, Color.discr_inj _ _ hdd]
        have hsk : TypesRs.straightKind cards = TrickType.Straight := by
          simp [TypesRs.straightKind, hclen, haeh]
        rw [hsk]
        exact iff_of_false (by simp) (fun hP => heq hP.2.2)
    · have hclen : (cards.filterMap Cards.get_color).length ≠ cards.length := fun h =>
        hall (length_filterMap_eq_iff.mp h)
      have hsk : TypesRs.straightKind cards = TrickType.Straight := by
        simp [TypesRs.straightKind, hclen]
      rw [hsk]
      refine iff_of_false (by simp) ?_
      rintro ⟨hP1, hP2, -⟩
      apply hall
      intro c hc
      exact Cards.colored_of_numbered (hnum c hc) (hP1 c hc) (hP2 c hc)
  have hor : TypesRs.straightKind cards = TrickType.StraightFlush ∨
      TypesRs.straightKind cards = TrickType.Straight := by
    simp only [TypesRs.straightKind]
    split_ifs <;> simp
  constructor
  · rw [step]
    simp only [Except.ok.injEq]
    exact hSF
  · rw [step]
    simp only [Except.ok.injEq]
    constructor
    · intro hst hP
      have h2 := hSF.mpr hP
      rw [hst] at h2
      simp at h2
    · intro hnP
      rcases hor with hA | hB
      · exact absurd (hSF.mp hA) hnP
      · exact hB

/-- C2, witness: the single-suited run 2-3-4-5-6 of Black classifies as a
StraightFlush, and the same run with the Five in Red classifies as a plain
Straight. -/
theorem C2_straight_flush_witness :
    TypesRs.try_from
        [Cards.Two Color.Black, Cards.Three Color.Black, Cards.Four Color.Black,
         Cards.Five Color.Black, Cards.Six Color.Black] = Except.ok TrickType.StraightFlush ∧
    TypesRs.try_from
        [Cards.Two Color.Black, Cards.Three Color.Black, Cards.Four Color.Black,
         Cards.Five Color.Red, Cards.Six Color.Black] = Except.ok TrickType.Straight := by
  constructor
  · exact (C2_straight_flush_classification
      [Cards.Two Color.Black, Cards.Three Color.Black, Cards.Four Color.Black,
       Cards.Five Color.Black, Cards.Six Color.Black]
      (by norm_num) (by norm_num) (by decide) (by rfl)).1.mpr
      ⟨by simp, by simp, by simp [Cards.get_color]⟩
  · exact (C2_straight_flush_classification
      [Cards.Two Color.Black, Cards.Three Color.Black, Cards.Four Color.Black,
       Cards.Five Color.Red, Cards.Six Color.Black]
      (by norm_num) (by norm_num) (by decide) (by rfl)).2.mpr
      (by
        rintro ⟨-, -, hcol⟩
        have h0 := hcol (Cards.Five Color.Red) (by simp) (Cards.Two Color.Black) (by simp)
        simp [Cards.get_color] at h0)

/-! ## Claim C9: Phoenix equality ignores the assigned value -/

theorem TypesRs.eqCards_phoenix_inv {e : Cards} {u : Option Nat}
    (h : TypesRs.eqCards e (Cards.Phoenix u) = true) : ∃ w, e = Cards.Phoenix w := by
  cases e <;> simp [TypesRs.eqCards] at h ⊢

/-- C9, confirmed: under the types.rs `PartialEq`, two Phoenixes compare
equal whatever their assigned values, and consequently a hand-containment
test for a Phoenix succeeds independently of the value stored in the hand or
in the query. -/
theorem C9_phoenix_equality (u v : Option Nat) (hand : List Cards) :
    TypesRs.eqCards (Cards.Phoenix u) (Cards.Phoenix v) = true ∧
    (TypesRs.containsCard hand (Cards.Phoenix u) = true →
      TypesRs.containsCard hand (Cards.Phoenix v) = true) := by
  refine ⟨rfl, ?_⟩
  intro h
  obtain ⟨e, he, heq⟩ := List.any_eq_true.mp h
  obtain ⟨w, rfl⟩ := TypesRs.eqCards_phoenix_inv heq
  exact List.any_eq_true.mpr ⟨Cards.Phoenix w, he, rfl⟩

/-- C9, witness: a hand holding the Phoenix assigned 2 contains the
unassigned Phoenix. -/
theorem C9_phoenix_equality_witness :
    TypesRs.eqCards (Cards.Phoenix (some 2)) (Cards.Phoenix none) = true ∧
    TypesRs.containsCard [Cards.Two Color.Black, Cards.Phoenix (some 2)]
      (Cards.Phoenix none) = true := by
  refine ⟨(C9_phoenix_equality (some 2) none []).1, ?_⟩
  exact (C9_phoenix_equality (some 2) none
    [Cards.Two Color.Black, Cards.Phoenix (some 2)]).2 (by rfl)

/-! ## Claim C1: advancing the round iterator -/

/-- C1, counterexample: in `roundTwoFinished` the players at seats 2 and 3
have both finished (their hands are `None`), yet `Round::next` advances from
seat 1 to seat 3 — the single hard-coded skip steps over seat 2 only, and
hands the turn to the finished player at seat 3 instead of continuing to
seat 4.  This refutes the claim that `next` skips every seat whose player
has finished. -/
theorem C1_counterexample :
    TypesRs.Round.next roundTwoFinished =
      some (some 3, { roundTwoFinished with current_player := 3 }) ∧
    TypesRs.getPlayer roundTwoFinished.prev_next_player 2 =
      some (mkTPlayer 3 none (some Team.Two)) ∧
    TypesRs.getPlayer roundTwoFinished.prev_next_player 3 =
      some (mkTPlayer 4 (some ⟨[Cards.Dog]⟩) (some Team.One)) := by
  refine ⟨by decide, by decide, by decide⟩

/-- C1, amended: whenever `Round::next` returns (does not panic), the seat
it reaches is the one obtained by following the next-pointer map once and
skipping at most one seat whose player has no hand; it signals the end of
the trick (yields no seat) exactly when the previous action was a Pass and
that post-skip seat is the last aggressor, in which case the current seat
becomes the last aggressor; otherwise the reached seat becomes current. -/
theorem C1_advance_single_skip (r : TypesRs.Round) (res : Option Sid) (r2 : TypesRs.Round)
    (h : TypesRs.Round.next r = some (res, r2)) :
    (res = none ↔ r.previous_action = some Action.Pass ∧
        TypesRs.advanceOneSkip r = some r.last_played_player) ∧
    (res = none → r2 = { r with current_player := r.last_played_player }) ∧
    (∀ s, res = some s → TypesRs.advanceOneSkip r = some s ∧
        r2 = { r with current_player := s }) := by
  rcases hp0 : TypesRs.getPlayer r.prev_next_player r.current_player with - | np0
  · simp only [TypesRs.Round.next, hp0] at h
    exact Option.noConfusion h
  · rcases hnp : (if np0.hand.isNone then TypesRs.getPlayer r.prev_next_player np0.socket_id
        else some np0) with - | np1
    · simp only [TypesRs.Round.next, hp0, hnp] at h
      exact Option.noConfusion h
    · have hadv : TypesRs.advanceOneSkip r = some np1.socket_id := by
        simp only [TypesRs.advanceOneSkip, hp0, hnp]
        rfl
      by_cases hcond : r.previous_action = some Action.Pass ∧
          np1.socket_id = r.last_played_player
      · simp only [TypesRs.Round.next, hp0, hnp, if_pos hcond] at h
        obtain ⟨hres, hr2⟩ := Prod.mk.injEq .. ▸ Option.some.inj h
        subst hres
        refine ⟨iff_of_true rfl ⟨hcond.1, by rw [hadv, hcond.2]⟩, fun _ => hr2.symm, ?_⟩
        intro s hs
        exact absurd hs (by simp)
      · simp only [TypesRs.Round.next, hp0, hnp, if_neg hcond] at h
        obtain ⟨hres, hr2⟩ := Prod.mk.injEq .. ▸ Option.some.inj h
        subst hres
        refine ⟨iff_of_false (by simp) ?_, by simp, ?_⟩
        · rintro ⟨hpass, hlast⟩
          rw [hadv] at hlast
          exact hcond ⟨hpass, Option.some.inj hlast⟩
        · intro s hs
          obtain rfl := Option.some.inj hs
          exact ⟨hadv, hr2.symm⟩

/-- C1, witness for the amended theorem: in `roundPassEnd` the previous
action was a Pass and the next seat is the last aggressor, so the iterator
signals the trick end and parks the current seat on the aggressor. -/
theorem C1_advance_single_skip_witness :
    ((none : Option Sid) = none ↔ roundPassEnd.previous_action = some Action.Pass ∧
        TypesRs.advanceOneSkip roundPassEnd = some roundPassEnd.last_played_player) ∧
    ((none : Option Sid) = none →
        ({ roundPassEnd with current_player := 2 } : TypesRs.Round) =
          { roundPassEnd with current_player := roundPassEnd.last_played_player }) ∧
    (∀ s, (none : Option Sid) = some s →
        TypesRs.advanceOneSkip roundPassEnd = some s ∧
        ({ roundPassEnd with current_player := 2 } : TypesRs.Round) =
          { roundPassEnd with current_player := s }) :=
  C1_advance_single_skip roundPassEnd none { roundPassEnd with current_player := 2 } (by decide)

/-! ## Claim C7: dealing partitions the deck -/

theorem perm_get_eraseIdx {α : Type} :
    ∀ (l : List α) (i : Nat) (h : i < l.length), List.Perm l (l.get ⟨i, h⟩ :: l.eraseIdx i) := by
  intro l
  induction l with
  | nil =>
    intro i h
    simp at h
  | cons a t ih =>
    intro i h
    cases i with
    | zero => simp [List.eraseIdx]
    | succ j =>
      have hj : j < t.length := by simpa using h
      have step : List.Perm (a :: t) (a :: (t.get ⟨j, hj⟩ :: t.eraseIdx j)) := (ih j hj).cons a
      refine step.trans ?_
      exact List.Perm.swap _ _ _

theorem draw_one_spec {deck : List Cards} {i : Nat} {p : Cards × List Cards}
    (h : CoreRs.draw_one deck i = some p) : List.Perm deck (p.1 :: p.2) := by
  unfold CoreRs.draw_one at h
  split at h
  · obtain rfl := (Option.some.inj h).symm
    exact perm_get_eraseIdx deck i (by assumption)
  · exact Option.noConfusion h

theorem draw_n_spec :
    ∀ (n : Nat) (rs : List Nat) (deck drawn rest : List Cards) (rs2 : List Nat),
      CoreRs.draw_n n rs deck = some (drawn, rest, rs2) →
      drawn.length = n ∧ List.Perm deck (drawn ++ rest) := by
  intro n
  induction n with
  | zero =>
    intro rs deck drawn rest rs2 h
    simp only [CoreRs.draw_n] at h
    have he := Option.some.inj h
    have e1 : ([] : List Cards) = drawn := congrArg Prod.fst he
    have e2 : deck = rest := congrArg (fun t => t.2.1) he
    subst e1
    subst e2
    exact ⟨rfl, by simp⟩
  | succ m ih =>
    intro rs deck drawn rest rs2 h
    cases rs with
    | nil => exact Option.noConfusion h
    | cons i rsTail =>
      simp only [CoreRs.draw_n] at h
      rcases hd1 : CoreRs.draw_one deck i with - | ⟨c, deck2⟩
      · rw [hd1] at h
        exact Option.noConfusion h
      · rw [hd1] at h
        dsimp only at h
        rcases hdn : CoreRs.draw_n m rsTail deck2 with - | ⟨cs, d2, r2⟩
        · rw [hdn] at h
          exact Option.noConfusion h
        · rw [hdn] at h
          simp only [Option.map] at h
          have he := Option.some.inj h
          have e1 : c :: cs = drawn := congrArg Prod.fst he
          have e2 : d2 = rest := congrArg (fun t => t.2.1) he
          subst e1
          subst e2
          obtain ⟨hlen, hperm⟩ := ih rsTail deck2 cs d2 r2 (by rw [hdn])
          have hfront := draw_one_spec hd1
          refine ⟨by simp [hlen], ?_⟩
          refine hfront.trans ?_
          simpa using hperm.cons c

/-- C7, confirmed: whatever indices the random number generator produces,
when `generate_hands` succeeds it returns exactly four hands of exactly
fourteen cards whose multiset union is precisely the 56-card deck (thirteen
numeric ranks in four suits plus Phoenix, Mahjong, Dragon, Dog). -/
theorem C7_generate_hands (rs : List Nat) (hands : List CoreRs.Hand)
    (h : CoreRs.generate_hands rs = some hands) :
    hands.length = 4 ∧ (∀ hd ∈ hands, hd.cards.length = 14) ∧
      List.Perm (hands.flatMap CoreRs.Hand.cards) CoreRs.full_deck ∧
      CoreRs.full_deck.length = 56 := by
  have hdeck : CoreRs.full_deck.length = 56 := by rfl
  unfold CoreRs.generate_hands at h
  rcases h1 : CoreRs.draw_n 14 rs CoreRs.full_deck with - | ⟨a1, d1, r1⟩
  · rw [h1] at h
    exact Option.noConfusion h
  rw [h1] at h
  dsimp only at h
  rcases h2 : CoreRs.draw_n 14 r1 d1 with - | ⟨a2, d2, r2⟩
  · rw [h2] at h
    exact Option.noConfusion h
  rw [h2] at h
  dsimp only at h
  rcases h3 : CoreRs.draw_n 14 r2 d2 with - | ⟨a3, d3, r3⟩
  · rw [h3] at h
    exact Option.noConfusion h
  rw [h3] at h
  dsimp only at h
  rcases h4 : CoreRs.draw_n 14 r3 d3 with - | ⟨a4, d4, r4⟩
  · rw [h4] at h
    exact Option.noConfusion h
  rw [h4] at h
  dsimp only at h
  obtain rfl := (Option.some.inj h).symm
  obtain ⟨l1, p1⟩ := draw_n_spec 14 rs CoreRs.full_deck a1 d1 r1 (by rw [h1])
  obtain ⟨l2, p2⟩ := draw_n_spec 14 r1 d1 a2 d2 r2 (by rw [h2])
  obtain ⟨l3, p3⟩ := draw_n_spec 14 r2 d2 a3 d3 r3 (by rw [h3])
  obtain ⟨l4, p4⟩ := draw_n_spec 14 r3 d3 a4 d4 r4 (by rw [h4])
  have hrest : d4 = [] := by
    have e1 := p1.length_eq
    have e2 := p2.length_eq
    have e3 := p3.length_eq
    have e4 := p4.length_eq
    simp only [List.length_append, l1, l2, l3, l4, hdeck] at e1 e2 e3 e4
    have hz : d4.length = 0 := by omega
    exact List.length_eq_zero.mp hz
  refine ⟨rfl, ?_, ?_, hdeck⟩
  · intro hd hmem
    simp only [List.mem_cons, List.not_mem_nil, or_false] at hmem
    rcases hmem with rfl | rfl | rfl | rfl <;> assumption
  · have whole : List.Perm CoreRs.full_deck (a1 ++ (a2 ++ (a3 ++ a4))) := by
      refine p1.trans ?_
      refine List.Perm.append_left _ ?_
      refine p2.trans ?_
      refine List.Perm.append_left _ ?_
      refine p3.trans ?_
      refine List.Perm.append_left _ ?_
      have hlast := p4
      rw [hrest] at hlast
      simpa using hlast
    have hflat : ([⟨a1⟩, ⟨a2⟩, ⟨a3⟩, ⟨a4⟩] : List CoreRs.Hand).flatMap
        CoreRs.Hand.cards = a1 ++ (a2 ++ (a3 ++ a4)) := by
      simp [List.flatMap]
    rw [hflat]
    exact whole.symm

/-- C7, witness: drawing with the head-index stream yields the four
consecutive 14-card chunks of the deck, which satisfy the partition
property. -/
theorem C7_generate_hands_witness :
    chunkHands.length = 4 ∧ (∀ hd ∈ chunkHands, hd.cards.length = 14) ∧
      List.Perm (chunkHands.flatMap CoreRs.Hand.cards) CoreRs.full_deck ∧
      CoreRs.full_deck.length = 56 :=
  C7_generate_hands headDraws chunkHands (by rfl)

/-! ## Claim C8: exchange validation -/

theorem CoreRs.player_owns_cards_iff (hand : CoreRs.Hand) (sel : List Cards) :
    CoreRs.player_owns_cards hand sel = true ↔ ∀ c ∈ sel, c ∈ hand.cards := by
  simp only [CoreRs.player_owns_cards, List.all_eq_true]
  constructor
  · intro h c hc
    exact List.elem_iff.mp (h c hc)
  · intro h c hc
    exact List.elem_iff.mpr (h c hc)

/-- C8, confirmed: given a stored game and a player registered in it,
`validate_exchange` returns the exchange unchanged exactly when the offer
does not name the sender as a recipient, the offered cards amount to exactly
three distinct cards, and the sender's hand exists and contains every
offered card; it returns an error exactly when one of these conditions
fails.  (The function only reads the store — the embedding returns no store
because the Rust body never writes through its lock.) -/
theorem C8_validate_exchange (store : List (String × CoreRs.Game)) (game : CoreRs.Game)
    (player_id : Sid) (player : CoreRs.Player) (exch : CoreRs.Exchange)
    (hg : CoreRs.getGame store exch.game_id = some game)
    (hp : CoreRs.getP game.players player_id = some player) :
    (CoreRs.validate_exchange player_id exch store = Except.ok exch ↔
      ¬ ((∃ kv ∈ exch.player_card, kv.1 = player.username) ∨
         (exch.player_card.map Prod.snd).dedup.length ≠ 3 ∨
         ¬ ∃ hand, player.hand = some hand ∧
            ∀ c ∈ (exch.player_card.map Prod.snd).dedup, c ∈ hand.cards)) ∧
    ((∃ e, CoreRs.validate_exchange player_id exch store = Except.error e) ↔
      ((∃ kv ∈ exch.player_card, kv.1 = player.username) ∨
       (exch.player_card.map Prod.snd).dedup.length ≠ 3 ∨
       ¬ ∃ hand, player.hand = some hand ∧
          ∀ c ∈ (exch.player_card.map Prod.snd).dedup, c ∈ hand.cards)) := by
  simp only [CoreRs.validate_exchange, hg, hp]
  by_cases hself : exch.player_card.any (fun kv => kv.1 == player.username) = true
  · rw [if_pos hself]
    have hA : ∃ kv ∈ exch.player_card, kv.1 = player.username := by
      obtain ⟨kv, hkv, hbeq⟩ := List.any_eq_true.mp hself
      exact ⟨kv, hkv, by simpa using hbeq⟩
    constructor
    · exact iff_of_false (by simp) (fun hn => hn (Or.inl hA))
    · exact iff_of_true ⟨_, rfl⟩ (Or.inl hA)
  · rw [if_neg hself]
    have hnA : ¬ ∃ kv ∈ exch.player_card, kv.1 = player.username := by
      rintro ⟨kv, hkv, he⟩
      exact hself (List.any_eq_true.mpr ⟨kv, hkv, by simpa using he⟩)
    by_cases hlen : ((exch.player_card.map Prod.snd).dedup).length = 3
    · rw [if_neg (not_not_intro hlen)]
      rcases hh : player.hand with - | hand
      · have hC : ¬ ∃ hand, (none : Option CoreRs.Hand) = some hand ∧
            ∀ c ∈ (exch.player_card.map Prod.snd).dedup, c ∈ hand.cards := by
          rintro ⟨hand, hh2, -⟩
          exact Option.noConfusion hh2
        constructor
        · exact iff_of_false (by simp) (fun hn => hn (Or.inr (Or.inr hC)))
        · exact iff_of_true ⟨_, rfl⟩ (Or.inr (Or.inr hC))
      · dsimp only
        by_cases howns :
            CoreRs.player_owns_cards hand ((exch.player_card.map Prod.snd).dedup) = true
        · rw [if_pos howns]
          have hexists : ∃ hand2, some hand = some hand2 ∧
              ∀ c ∈ (exch.player_card.map Prod.snd).dedup, c ∈ hand2.cards :=
            ⟨hand, rfl, (CoreRs.player_owns_cards_iff hand _).mp howns⟩
          constructor
          · refine iff_of_true rfl ?_
            rintro (h | h | h)
            · exact hnA h
            · exact h hlen
            · exact h hexists
          · refine iff_of_false ?_ ?_
            · rintro ⟨e, he⟩
              exact Except.noConfusion he
            · rintro (h | h | h)
              · exact hnA h
              · exact h hlen
              · exact h hexists
        · rw [if_neg howns]
          have hC : ¬ ∃ hand2, some hand = some hand2 ∧
              ∀ c ∈ (exch.player_card.map Prod.snd).dedup, c ∈ hand2.cards := by
            rintro ⟨hand2, hh2, hall⟩
            obtain rfl := Option.some.inj hh2
            exact howns ((CoreRs.player_owns_cards_iff _ _).mpr hall)
          constructor
          · exact iff_of_false (by simp) (fun hn => hn (Or.inr (Or.inr hC)))
          · exact iff_of_true ⟨_, rfl⟩ (Or.inr (Or.inr hC))
    · rw [if_pos hlen]
      constructor
      · exact iff_of_false (by simp) (fun hn => hn (Or.inr (Or.inl hlen)))
      · exact iff_of_true ⟨_, rfl⟩ (Or.inr (Or.inl hlen))

/-- C8, witness: alice's offer of three distinct cards she owns to three
other players validates and is returned unchanged. -/
theorem C8_validate_exchange_witness :
    CoreRs.validate_exchange 1 sampleExchange sampleStore = Except.ok sampleExchange := by
  refine (C8_validate_exchange sampleStore sampleGame 1
    (mkCPlayer 1 "alice"
      (some ⟨[Cards.Two Color.Black, Cards.Three Color.Blue, Cards.King Color.Red,
              Cards.Dog]⟩) (some Team.One))
    sampleExchange (by rfl) (by rfl)).1.mpr ?_
  rintro (hA | hB | hC)
  · simp [sampleExchange, mkCPlayer] at hA
  · exact hB (by rfl)
  · refine hC ⟨⟨[Cards.Two Color.Black, Cards.Three Color.Blue, Cards.King Color.Red,
        Cards.Dog]⟩, rfl, ?_⟩
    decide

/-! ## Claim C6: the seating map is an alternating 4-cycle -/

theorem sid_inj {players : List CoreRs.Player}
    (hnd : (players.map CoreRs.Player.socket_id).Nodup) :
    ∀ {a b : CoreRs.Player}, a ∈ players → b ∈ players →
      a.socket_id = b.socket_id → a = b := by
  intro a b ha hb he
  exact List.inj_on_of_nodup_map hnd ha hb he

theorem find_by_sid {players : List CoreRs.Player}
    (hnd : (players.map CoreRs.Player.socket_id).Nodup) {p : CoreRs.Player}
    (hp : p ∈ players) :
    players.find? (fun x => x.socket_id == p.socket_id) = some p := by
  have hsome : (players.find? (fun x => x.socket_id == p.socket_id)).isSome := by
    rw [List.find?_isSome]
    exact ⟨p, hp, by simp⟩
  obtain ⟨q, hq⟩ := Option.isSome_iff_exists.mp hsome
  have hqmem : q ∈ players := List.mem_of_find?_eq_some hq
  have hqsid : q.socket_id = p.socket_id := by simpa using List.find?_some hq
  rw [hq, sid_inj hnd hqmem hp hqsid]

theorem teamOfSid_eq {players : List CoreRs.Player}
    (hnd : (players.map CoreRs.Player.socket_id).Nodup) {p : CoreRs.Player}
    (hp : p ∈ players) :
    CoreRs.teamOfSid players p.socket_id = p.team := by
  rw [CoreRs.teamOfSid, find_by_sid hnd hp]
  rfl

/-- C6, confirmed: with exactly two players on Team One and two on Team Two
(all socket ids distinct, as `HashMap` keys are), the seat interleaving of
`init_playing_phase` builds a turn-sequence map that is a single 4-cycle
(following the map four times from any seat returns to it) in which every
seat and its successor belong to different teams. -/
theorem C6_seating_cycle (players : List CoreRs.Player)
    (hnd : (players.map CoreRs.Player.socket_id).Nodup)
    (h1 : (players.filter (fun p => p.team == some Team.One)).length = 2)
    (h2 : (players.filter (fun p => p.team == some Team.Two)).length = 2) :
    ∃ ti, CoreRs.TurnIterator.from? (CoreRs.init_turns players) = some ti ∧
      ∀ s ∈ CoreRs.init_turns players,
        (∃ s1 s2 s3, CoreRs.getSid ti.turn_sequence s = some s1 ∧
            CoreRs.getSid ti.turn_sequence s1 = some s2 ∧
            CoreRs.getSid ti.turn_sequence s2 = some s3 ∧
            CoreRs.getSid ti.turn_sequence s3 = some s) ∧
        (∀ t, CoreRs.getSid ti.turn_sequence s = some t →
          CoreRs.teamOfSid players s ≠ CoreRs.teamOfSid players t) := by
  obtain ⟨p, q, hpq⟩ := List.length_eq_two.mp h1
  obtain ⟨r, s, hrs⟩ := List.length_eq_two.mp h2
  have hpmem : p ∈ players := List.mem_of_mem_filter (by rw [hpq]; simp)
  have hqmem : q ∈ players := List.mem_of_mem_filter (by rw [hpq]; simp)
  have hrmem : r ∈ players := List.mem_of_mem_filter (by rw [hrs]; simp)
  have hsmem : s ∈ players := List.mem_of_mem_filter (by rw [hrs]; simp)
  have hpteam : p.team = some Team.One := by
    have hmem : p ∈ players.filter (fun x => x.team == some Team.One) := by
      rw [hpq]
      simp
    have hfil := List.of_mem_filter hmem
    simpa using hfil
  have hqteam : q.team = some Team.One := by
    have hmem : q ∈ players.filter (fun x => x.team == some Team.One) := by
      rw [hpq]
      simp
    have hfil := List.of_mem_filter hmem
    simpa using hfil
  have hrteam : r.team = some Team.Two := by
    have hmem : r ∈ players.filter (fun x => x.team == some Team.Two) := by
      rw [hrs]
      simp
    have hfil := List.of_mem_filter hmem
    simpa using hfil
  have hsteam : s.team = some Team.Two := by
    have hmem : s ∈ players.filter (fun x => x.team == some Team.Two) := by
      rw [hrs]
      simp
    have hfil := List.of_mem_filter hmem
    simpa using hfil
  have sid_ne : ∀ {a b : CoreRs.Player}, a ∈ players → b ∈ players → a.team ≠ b.team →
      a.socket_id ≠ b.socket_id := by
    intro a b ha hb hne he
    exact hne (congrArg CoreRs.Player.team (sid_inj hnd ha hb he))
  have hpq_ne : p.socket_id ≠ q.socket_id := by
    have hsub : List.Sublist
        ((players.filter (fun p => p.team == some Team.One)).map CoreRs.Player.socket_id)
        (players.map CoreRs.Player.socket_id) :=
      List.Sublist.map CoreRs.Player.socket_id (List.filter_sublist players)
    have hfn : ((players.filter (fun p => p.team == some Team.One)).map
        CoreRs.Player.socket_id).Nodup := List.Nodup.sublist hsub hnd
    rw [hpq] at hfn
    simp [List.nodup_cons] at hfn
    exact hfn
  have hrs_ne : r.socket_id ≠ s.socket_id := by
    have hsub : List.Sublist
        ((players.filter (fun p => p.team == some Team.Two)).map CoreRs.Player.socket_id)
        (players.map CoreRs.Player.socket_id) :=
      List.Sublist.map CoreRs.Player.socket_id (List.filter_sublist players)
    have hfn : ((players.filter (fun p => p.team == some Team.Two)).map
        CoreRs.Player.socket_id).Nodup := List.Nodup.sublist hsub hnd
    rw [hrs] at hfn
    simp [List.nodup_cons] at hfn
    exact hfn
  have hpr_ne : p.socket_id ≠ r.socket_id :=
    sid_ne hpmem hrmem (by rw [hpteam, hrteam]; simp)
  have hps_ne : p.socket_id ≠ s.socket_id :=
    sid_ne hpmem hsmem (by rw [hpteam, hsteam]; simp)
  have hqr_ne : q.socket_id ≠ r.socket_id :=
    sid_ne hqmem hrmem (by rw [hqteam, hrteam]; simp)
  have hqs_ne : q.socket_id ≠ s.socket_id :=
    sid_ne hqmem hsmem (by rw [hqteam, hsteam]; simp)
  have hturns : CoreRs.init_turns players =
      [p.socket_id, r.socket_id, q.socket_id, s.socket_id] := by
    simp [CoreRs.init_turns, hpq, hrs]
  have f_qp : (q.socket_id == p.socket_id) = false := beq_eq_false_iff_ne.mpr (Ne.symm hpq_ne)
  have f_rp : (r.socket_id == p.socket_id) = false := beq_eq_false_iff_ne.mpr (Ne.symm hpr_ne)
  have f_qr : (q.socket_id == r.socket_id) = false := beq_eq_false_iff_ne.mpr hqr_ne
  have f_qs : (q.socket_id == s.socket_id) = false := beq_eq_false_iff_ne.mpr hqs_ne
  have f_rs : (r.socket_id == s.socket_id) = false := beq_eq_false_iff_ne.mpr hrs_ne
  have f_ps : (p.socket_id == s.socket_id) = false := beq_eq_false_iff_ne.mpr hps_ne
  refine ⟨⟨[(q.socket_id, s.socket_id), (r.socket_id, q.socket_id),
      (p.socket_id, r.socket_id), (s.socket_id, p.socket_id)], p.socket_id⟩, ?_, ?_⟩
  · rw [hturns]
    rfl
  · have g_p : CoreRs.getSid
        [(q.socket_id, s.socket_id), (r.socket_id, q.socket_id), (p.socket_id, r.socket_id),
         (s.socket_id, p.socket_id)] p.socket_id = some r.socket_id := by
      simp [CoreRs.getSid, List.find?, f_qp, f_rp]
    have g_r : CoreRs.getSid
        [(q.socket_id, s.socket_id), (r.socket_id, q.socket_id), (p.socket_id, r.socket_id),
         (s.socket_id, p.socket_id)] r.socket_id = some q.socket_id := by
      simp [CoreRs.getSid, List.find?, f_qr]
    have g_q : CoreRs.getSid
        [(q.socket_id, s.socket_id), (r.socket_id, q.socket_id), (p.socket_id, r.socket_id),
         (s.socket_id, p.socket_id)] q.socket_id = some s.socket_id := by
      simp [CoreRs.getSid, List.find?]
    have g_s : CoreRs.getSid
        [(q.socket_id, s.socket_id), (r.socket_id, q.socket_id), (p.socket_id, r.socket_id),
         (s.socket_id, p.socket_id)] s.socket_id = some p.socket_id := by
      simp [CoreRs.getSid, List.find?, f_qs, f_rs, f_ps]
    have tOf_p : CoreRs.teamOfSid players p.socket_id = some Team.One := by
      rw [teamOfSid_eq hnd hpmem, hpteam]
    have tOf_q : CoreRs.teamOfSid players q.socket_id = some Team.One := by
      rw [teamOfSid_eq hnd hqmem, hqteam]
    have tOf_r : CoreRs.teamOfSid players r.socket_id = some Team.Two := by
      rw [teamOfSid_eq hnd hrmem, hrteam]
    have tOf_s : CoreRs.teamOfSid players s.socket_id = some Team.Two := by
      rw [teamOfSid_eq hnd hsmem, hsteam]
    rw [hturns]
    intro s0 hs0
    simp only [List.mem_cons, List.not_mem_nil, or_false] at hs0
    rcases hs0 with rfl | rfl | rfl | rfl
    · refine ⟨⟨r.socket_id, q.socket_id, s.socket_id, g_p, g_r, g_q, g_s⟩, ?_⟩
      intro t ht
      rw [g_p] at ht
      obtain rfl := Option.some.inj ht
      rw [tOf_p, tOf_r]
      simp
    · refine ⟨⟨q.socket_id, s.socket_id, p.socket_id, g_r, g_q, g_s, g_p⟩, ?_⟩
      intro t ht
      rw [g_r] at ht
      obtain rfl := Option.some.inj ht
      rw [tOf_r, tOf_q]
      simp
    · refine ⟨⟨s.socket_id, p.socket_id, r.socket_id, g_q, g_s, g_p, g_r⟩, ?_⟩
      intro t ht
      rw [g_q] at ht
      obtain rfl := Option.some.inj ht
      rw [tOf_q, tOf_s]
      simp
    · refine ⟨⟨p.socket_id, r.socket_id, q.socket_id, g_s, g_p, g_r, g_q⟩, ?_⟩
      intro t ht
      rw [g_s] at ht
      obtain rfl := Option.some.inj ht
      rw [tOf_s, tOf_p]
      simp

/-- C6, witness: four seated players (and a spectator) in a sample order
produce an iterator satisfying the 4-cycle and alternation properties. -/
theorem C6_seating_cycle_witness :
    ∃ ti, CoreRs.TurnIterator.from? (CoreRs.init_turns samplePlayers) = some ti ∧
      ∀ s ∈ CoreRs.init_turns samplePlayers,
        (∃ s1 s2 s3, CoreRs.getSid ti.turn_sequence s = some s1 ∧
            CoreRs.getSid ti.turn_sequence s1 = some s2 ∧
            CoreRs.getSid ti.turn_sequence s2 = some s3 ∧
            CoreRs.getSid ti.turn_sequence s3 = some s) ∧
        (∀ t, CoreRs.getSid ti.turn_sequence s = some t →
          CoreRs.teamOfSid samplePlayers s ≠ CoreRs.teamOfSid samplePlayers t) :=
  C6_seating_cycle samplePlayers (by decide) (by decide) (by decide)

/-! ## Claim C10: the two classifiers -/

theorem bool_eq_of_iff {a b : Bool} (h : a = true ↔ b = true) : a = b := by
  cases a <;> cases b <;> simp_all

/-- core.rs `is_full_house` never holds: `types_count` counts occurrences
inside the deduplicated list itself, so it is always `[1, 1]` when the
length test passes. -/
theorem CoreRs.is_full_house_false (cards : List Cards) :
    CoreRs.is_full_house cards = false := by
  simp only [CoreRs.is_full_house]
  by_cases hl : (vec_dedup (sortNat (CoreRs.card_digits cards))).length = 2
  · rw [if_neg (not_not_intro hl)]
    obtain ⟨x, y, hxy⟩ := List.length_eq_two.mp hl
    have hne : x ≠ y := vec_dedup_head_ne _ x y [] hxy
    have f1 : (y == x) = false := beq_eq_false_iff_ne.mpr (Ne.symm hne)
    have f2 : (x == y) = false := beq_eq_false_iff_ne.mpr hne
    rw [hxy]
    simp [List.filter, f1, f2]
  · rw [if_pos hl]

/-- C10, counterexample: on the four-card list `2 2 2 Phoenix(2)` the core.rs
classifier (which only compares card digits) returns FourOfAKind while the
types.rs classifier (which compares constructors) rejects, so the two
classifiers do not produce the same outcome. -/
theorem C10_counterexample :
    CoreRs.try_from
        [Cards.Two Color.Black, Cards.Two Color.Blue, Cards.Two Color.Red,
         Cards.Phoenix (some 2)] = Except.ok TrickType.FourOfAKind ∧
    TypesRs.try_from
        [Cards.Two Color.Black, Cards.Two Color.Blue, Cards.Two Color.Red,
         Cards.Phoenix (some 2)] = Except.error "invalid trick" := by
  exact ⟨rfl, rfl⟩

theorem card_digits_eq (cards : List Cards)
    (hcol : ∀ c ∈ cards, (c.get_color).isSome = true) :
    CoreRs.card_digits cards = TypesRs.card_numbers cards := by
  unfold CoreRs.card_digits TypesRs.card_numbers
  refine List.filterMap_congr ?_
  intro c hc
  rw [Cards.digit_of_colored (hcol c hc), Cards.number_of_colored (hcol c hc)]

theorem sameDiscriminant_iff (cards : List Cards) :
    TypesRs.sameDiscriminant cards = true ↔
      ∀ c ∈ cards, ∀ d ∈ cards, c.discr = d.discr := by
  rw [TypesRs.sameDiscriminant, allEqHead_iff]
  constructor
  · intro h x hx y hy
    exact h _ (List.mem_map_of_mem Cards.discr hx) _ (List.mem_map_of_mem Cards.discr hy)
  · intro h x hx y hy
    obtain ⟨x0, hx0, rfl⟩ := List.mem_map.mp hx
    obtain ⟨y0, hy0, rfl⟩ := List.mem_map.mp hy
    exact h x0 hx0 y0 hy0

theorem all_equal_eq_sameDiscriminant (cards : List Cards)
    (hcol : ∀ c ∈ cards, (c.get_color).isSome = true) (hne : cards ≠ []) :
    CoreRs.all_equal cards = TypesRs.sameDiscriminant cards := by
  apply bool_eq_of_iff
  rw [CoreRs.all_equal_digit_iff, sameDiscriminant_iff]
  constructor
  · rintro ⟨-, hall⟩ c hc d hd
    have hcd : c.get_card_digit = some c.discr := Cards.digit_of_colored (hcol c hc)
    have hdd2 : d.get_card_digit = some d.discr := Cards.digit_of_colored (hcol d hd)
    exact hall c.discr (List.mem_filterMap.mpr ⟨c, hc, hcd⟩) d.discr
      (List.mem_filterMap.mpr ⟨d, hd, hdd2⟩)
  · intro hall
    constructor
    · obtain ⟨c, t, rfl⟩ := List.exists_cons_of_ne_nil hne
      intro h0
      have hm : c.discr ∈ CoreRs.card_digits (c :: t) :=
        List.mem_filterMap.mpr ⟨c, by simp, Cards.digit_of_colored (hcol c (by simp))⟩
      rw [h0] at hm
      exact List.not_mem_nil _ hm
    · intro x hx y hy
      obtain ⟨cx, hcx, hcx2⟩ := List.mem_filterMap.mp hx
      obtain ⟨cy, hcy, hcy2⟩ := List.mem_filterMap.mp hy
      have e1 : x = cx.discr := by
        have hq := Cards.digit_of_colored (hcol cx hcx)
        rw [hq] at hcx2
        exact (Option.some.inj hcx2).symm
      have e2 : y = cy.discr := by
        have hq := Cards.digit_of_colored (hcol cy hcy)
        rw [hq] at hcy2
        exact (Option.some.inj hcy2).symm
      rw [e1, e2]
      exact hall cx hcx cy hcy

theorem allEqHead_colors_iff (cards : List Cards)
    (hall : ∀ c ∈ cards, (c.get_color).isSome = true) :
    allEqHead ((cards.filterMap Cards.get_color).map Color.discr) = true ↔
      ∀ c ∈ cards, ∀ d ∈ cards, c.get_color = d.get_color := by
  rw [allEqHead_iff]
  constructor
  · intro h c hc d hd
    obtain ⟨colc, hcolc⟩ := Option.isSome_iff_exists.mp (hall c hc)
    obtain ⟨cold, hcold⟩ := Option.isSome_iff_exists.mp (hall d hd)
    have hmc : colc.discr ∈ (cards.filterMap Cards.get_color).map Color.discr :=
      List.mem_map_of_mem _ (List.mem_filterMap.mpr ⟨c, hc, hcolc⟩)
    have hmd : cold.discr ∈ (cards.filterMap Cards.get_color).map Color.discr :=
      List.mem_map_of_mem _ (List.mem_filterMap.mpr ⟨d, hd, hcold⟩)
    rw [hcolc, hcold, Color.discr_inj _ _ (h _ hmc _ hmd)]
  · intro h x hx y hy
    obtain ⟨cx, hcx, rfl⟩ := List.mem_map.mp hx
    obtain ⟨cy, hcy, rfl⟩ := List.mem_map.mp hy
    obtain ⟨ax, hax, haxc⟩ := List.mem_filterMap.mp hcx
    obtain ⟨ay, hay, hayc⟩ := List.mem_filterMap.mp hcy
    have hq := h ax hax ay hay
    rw [haxc, hayc] at hq
    rw [Option.some.inj hq]

/-- C10, amended: the two classifiers agree on every list of natural suited
cards except in three branches where core.rs deviates: full houses (types.rs
FullHouse, core.rs reject), 4-card double pair runs (types.rs reject,
core.rs SequenceOfPairs), and single-suited straights (types.rs
StraightFlush, core.rs Straight).  With a Phoenix or Mahjong present they
may further diverge, e.g. on four-of-a-kinds containing a Phoenix. -/
theorem C10_classifier_agreement (cards : List Cards)
    (hcol : ∀ c ∈ cards, (c.get_color).isSome = true)
    (h4sp : ¬ (cards.length = 4 ∧ TypesRs.is_sequence_of_pairs cards = true))
    (hfh5 : ¬ (cards.length = 5 ∧ TypesRs.is_full_house cards = true))
    (hflush : ¬ (5 ≤ cards.length ∧ cards.length ≤ 14 ∧ TypesRs.is_sequence cards = true ∧
        ∀ c ∈ cards, ∀ d ∈ cards, c.get_color = d.get_color)) :
    CoreRs.try_from cards = TypesRs.try_from cards := by
  have hdig := card_digits_eq cards hcol
  have hAE : CoreRs.all_equal cards = TypesRs.all_equal cards := by
    unfold CoreRs.all_equal TypesRs.all_equal
    rw [hdig]
  have hSQ : CoreRs.is_sequence cards = TypesRs.is_sequence cards := by
    unfold CoreRs.is_sequence TypesRs.is_sequence
    rw [hdig]
  have hSP : CoreRs.is_sequence_of_pairs cards = TypesRs.is_sequence_of_pairs cards := by
    unfold CoreRs.is_sequence_of_pairs TypesRs.is_sequence_of_pairs
    rw [hdig]
  have hclen : (cards.filterMap Cards.get_color).length = cards.length :=
    length_filterMap_eq_iff.mpr hcol
  by_cases l1 : cards.length = 1
  · simp [CoreRs.try_from, TypesRs.try_from, l1]
  by_cases l2 : cards.length = 2
  · simp [CoreRs.try_from, TypesRs.try_from, l1, l2, hAE]
  by_cases l3 : cards.length = 3
  · simp [CoreRs.try_from, TypesRs.try_from, l1, l2, l3, hAE]
  by_cases l4 : cards.length = 4
  · have hne : cards ≠ [] := by
      intro h0
      rw [h0] at l4
      simp at l4
    have hAED := all_equal_eq_sameDiscriminant cards hcol hne
    have hsp_f : TypesRs.is_sequence_of_pairs cards = false := by
      cases hb : TypesRs.is_sequence_of_pairs cards
      · rfl
      · exact absurd ⟨l4, hb⟩ h4sp
    by_cases hae : TypesRs.sameDiscriminant cards = true
    · have hae2 : CoreRs.all_equal cards = true := by
        rw [hAED]
        exact hae
      simp [CoreRs.try_from, TypesRs.try_from, l1, l2, l3, l4, hae, hae2]
    · have hae3 : TypesRs.sameDiscriminant cards = false := by
        cases hb : TypesRs.sameDiscriminant cards
        · rfl
        · exact absurd hb hae
      have hae2 : CoreRs.all_equal cards = false := by
        rw [hAED]
        exact hae3
      simp [CoreRs.try_from, TypesRs.try_from, l1, l2, l3, l4, hae2, hae3, hSP, hsp_f]
  by_cases l0 : cards.length = 0
  · simp [CoreRs.try_from, TypesRs.try_from, l0]
  have hge5 : 5 ≤ cards.length := by omega
  by_cases l14 : cards.length ≤ 14
  · by_cases hspb : TypesRs.is_sequence_of_pairs cards = true
    · have h4le : 4 ≤ cards.length := by omega
      simp [CoreRs.try_from, TypesRs.try_from, l1, l2, l3, l4, hfh5,
        CoreRs.is_full_house_false, hSP, hspb, h4le, l14]
    · have hsp_f2 : TypesRs.is_sequence_of_pairs cards = false := by
        cases hb : TypesRs.is_sequence_of_pairs cards
        · rfl
        · exact absurd hb hspb
      by_cases hsq : TypesRs.is_sequence cards = true
      · have hc1 : (cards.filterMap Cards.get_color).length ≠ 1 := by
          rw [hclen]
          omega
        have haeh_f : allEqHead ((cards.filterMap Cards.get_color).map Color.discr) = false := by
          cases hb : allEqHead ((cards.filterMap Cards.get_color).map Color.discr)
          · rfl
          · exact absurd ⟨hge5, l14, hsq, (allEqHead_colors_iff cards hcol).mp hb⟩ hflush
        have hskT : TypesRs.straightKind cards = TrickType.Straight := by
          simp [TypesRs.straightKind, hclen, haeh_f]
        simp [CoreRs.try_from, TypesRs.try_from, l1, l2, l3, l4, hfh5,
          CoreRs.is_full_house_false, hSP, hsp_f2, hSQ, hsq, hge5, l14, hc1, hskT]
      · have hsq_f : TypesRs.is_sequence cards = false := by
          cases hb : TypesRs.is_sequence cards
          · rfl
          · exact absurd hb hsq
        simp [CoreRs.try_from, TypesRs.try_from, l1, l2, l3, l4, hfh5,
          CoreRs.is_full_house_false, hSP, hsp_f2, hSQ, hsq_f, l14]
  · have l5f : ¬ (cards.length = 5) := by omega
    simp [CoreRs.try_from, TypesRs.try_from, l1, l2, l3, l4, l5f, l14,
      CoreRs.is_full_house_false, hSP, hSQ]

/-- C10, witness for the amended theorem: on a plain multi-suit straight the
two classifiers agree (both return Straight). -/
theorem C10_classifier_agreement_witness :
    CoreRs.try_from
        [Cards.Two Color.Black, Cards.Three Color.Blue, Cards.Four Color.Red,
         Cards.Five Color.Black, Cards.Six Color.Green] =
      TypesRs.try_from
        [Cards.Two Color.Black, Cards.Three Color.Blue, Cards.Four Color.Red,
         Cards.Five Color.Black, Cards.Six Color.Green] :=
  C10_classifier_agreement
    [Cards.Two Color.Black, Cards.Three Color.Blue, Cards.Four Color.Red,
     Cards.Five Color.Black, Cards.Six Color.Green]
    (by decide) (by decide) (by decide) (by decide)

end Tichu
